import Mathlib

set_option maxRecDepth 100000

/-!
# Verification of the sparse bit set codec (`int-set/src/sparse_bit_set.rs`)

A shallow embedding of the sparse bit set encoder/decoder from the
`int-set` crate.  Integer sets (`IntSet<u32>`) are modelled as `Finset ℕ`
together with a membership predicate `ℕ → Bool` for the "filled" sets
(the code only ever queries those via `contains`).  Machine integers are
modelled as `ℕ`; the Rust code computes in `u32`, and every claim that
depends on an overflow is treated explicitly.

The bit-stream reader/writer (`input_bit_stream.rs` / `output_bit_stream.rs`)
is not part of the sources; it is modelled from the spec (wire format
section): a 1-byte header (reserved bit, 5-bit height field, 2-bit branch
factor selector), followed by node words of `branchFactor` bits each,
packed contiguously, low bits first, trailing bits zero-padded.
-/

namespace SparseBitSet

/-- `BranchFactor`: the closed enumeration of supported branch factors. -/
inductive BranchFactor where
  | Two
  | Four
  | Eight
  | ThirtyTwo
deriving DecidableEq, Repr

namespace BranchFactor

/-- `BranchFactor::value`. -/
def value : BranchFactor → ℕ
  | Two => 2
  | Four => 4
  | Eight => 8
  | ThirtyTwo => 32

/-- `BranchFactor::node_size_log2`. -/
def node_size_log2 : BranchFactor → ℕ
  | Two => 1
  | Four => 2
  | Eight => 3
  | ThirtyTwo => 5

/-- `BranchFactor::u32_mask`. -/
def u32_mask : BranchFactor → ℕ
  | Two => 0b00000011
  | Four => 0b00001111
  | Eight => 0b11111111
  | ThirtyTwo => 0b11111111111111111111111111111111

/-- `BranchFactor::from_val` (only ever called with 2, 4, 8, 32). -/
def from_val (val : ℕ) : BranchFactor :=
  match val with
  | 2 => Two
  | 4 => Four
  | 8 => Eight
  | 32 => ThirtyTwo
  | _ => Two  -- unreachable in the code (it panics); arbitrary value

theorem node_size_log2_pos (bf : BranchFactor) : 0 < bf.node_size_log2 := by
  cases bf <;> simp [node_size_log2]

theorem value_pos (bf : BranchFactor) : 0 < bf.value := by
  cases bf <;> simp [value]

theorem value_eq_two_pow (bf : BranchFactor) : bf.value = 2 ^ bf.node_size_log2 := by
  cases bf <;> rfl

/-- `BranchFactor::tree_height_for`: the loop
`height += 1; max_value >>= log2; if max_value == 0 break height`. -/
def tree_height_for (bf : BranchFactor) (max_value : ℕ) : ℕ :=
  if max_value >>> bf.node_size_log2 = 0 then 1
  else 1 + bf.tree_height_for (max_value >>> bf.node_size_log2)
termination_by max_value
decreasing_by
  rename_i h
  have hl := bf.node_size_log2_pos
  have hm : max_value ≠ 0 := by
    intro hz
    simp [hz] at h
  rw [Nat.shiftRight_eq_div_pow]
  exact Nat.div_lt_self (Nat.pos_of_ne_zero hm) (Nat.one_lt_two_pow_iff.mpr (by omega))

/-- The 2-bit selector written in the header for this branch factor
(`00→2, 01→4, 10→8, 11→32` per the wire format). -/
def bit_id : BranchFactor → ℕ
  | Two => 0
  | Four => 1
  | Eight => 2
  | ThirtyTwo => 3

end BranchFactor

/-! ## Bit-stream model (spec-modelled collaborator)

`Modelled from the spec:` the `input_bit_stream` / `output_bit_stream`
modules are not in the sources.  Per the wire-format section of the spec,
the header is one byte: reserved bit (most significant), a 5-bit height
field, and the 2-bit branch-factor selector in the low bits; node words of
`branchFactor` bits each follow, packed contiguously starting at the low
bits of each byte, and the trailing bits of the final byte are zero. -/

/-- `Modelled from the spec:` the header byte written by
`OutputBitStream::new` — 5-bit height field and 2-bit branch factor id. -/
def headerByte (bf : BranchFactor) (height : ℕ) : ℕ :=
  ((height &&& 31) <<< 2) ||| bf.bit_id

/-- `Modelled from the spec:` `OutputBitStream::MAX_HEIGHT`, the largest
height representable in the 5-bit header height field. -/
def MAX_HEIGHT : ℕ := 31

/-- The `w` bits of a node word, low bit first. -/
def toBits (w : ℕ) (val : ℕ) : List ℕ :=
  (List.range w).map (fun j => (val >>> j) &&& 1)

/-- Reassemble one byte from (at most 8) bits, low bit first. -/
def byteOfBits : List ℕ → ℕ
  | [] => 0
  | c :: cs => c + 2 * byteOfBits cs

/-- Chunk a bit sequence into bytes, low bits first, zero-padding the tail. -/
def bytesOfBits (bits : List ℕ) : List ℕ :=
  match bits with
  | [] => []
  | b :: rest => byteOfBits (b :: rest.take 7) :: bytesOfBits (rest.drop 7)
termination_by bits.length
decreasing_by
  simp only [List.length_cons, List.length_drop]
  omega

/-- `Modelled from the spec:` `OutputBitStream::into_bytes` — the header
byte followed by the node words (`w = branchFactor` bits each) packed
contiguously, low bits first. -/
def intoBytes (bf : BranchFactor) (height : ℕ) (words : List ℕ) : List ℕ :=
  headerByte bf height :: bytesOfBits ((words.map (toBits bf.value)).flatten)

/-- Bit `i` of the byte stream (bit `i % 8` of byte `i / 8`). -/
def bitAt (data : List ℕ) (i : ℕ) : ℕ :=
  ((data.getD (i / 8) 0) >>> (i % 8)) &&& 1

/-- The word of `w` bits starting at bit position `pos`, low bit first. -/
def wordAt (data : List ℕ) (pos w : ℕ) : ℕ :=
  ((List.range w).map (fun j => bitAt data (pos + j) <<< j)).sum

/-- `Modelled from the spec:` `InputBitStream::next` — consume `w` bits
from position `pos`, yielding nothing at end of stream. -/
def readWord (w : ℕ) (data : List ℕ) (pos : ℕ) : Option (ℕ × ℕ) :=
  if pos + w ≤ 8 * data.length then some (wordAt data pos w, pos + w) else none

/-- `Modelled from the spec:` `InputBitStream::<0>::decode_header` — reads
the branch factor selector and the 5-bit height from the first byte; fails
when the stream is empty. -/
def decode_header (data : List ℕ) : Option (BranchFactor × ℕ) :=
  match data with
  | [] => none
  | b :: _ =>
    let bf : BranchFactor :=
      match b &&& 3 with
      | 0 => .Two
      | 1 => .Four
      | 2 => .Eight
      | _ => .ThirtyTwo
    some (bf, (b >>> 2) &&& 31)

/-! ## The decoder (`IntSet::decode_sparse_bit_set_nodes`) -/

/-- `NextNode`: a pending expansion unit of the decoder. -/
structure NextNode where
  start : ℕ
  depth : ℕ
deriving DecidableEq, Repr

/-- Ascending positions of the set bits of a `u32` word; this models the
inner loop `bit_index = bits.trailing_zeros(); if bit_index == 32 break;
...; bits &= !(1 << bit_index)`, which visits exactly the set bits of the
32-bit word, lowest first. -/
def bitIndices (word : ℕ) : List ℕ :=
  (List.range 32).filter (fun j => word.testBit j)

/-- The single decoding error (`DecodingError`) is modelled as `none`. -/
def decodeLoop (bf : BranchFactor) (data : List ℕ) (height : ℕ)
    (pos : ℕ) (queue : List NextNode) (out : Finset ℕ) : Option (Finset ℕ) :=
  match queue with
  | [] => some out
  | next :: rest =>
    match h : readWord bf.value data pos with
    | none => none
    | some (word, pos') =>
      if word = 0 then
        -- all bits zero: fill all integers covered by this node
        decodeLoop bf data height pos' rest
          (out ∪ Finset.Icc next.start (next.start + bf.value ^ (height - next.depth + 1) - 1))
      else if next.depth = height then
        decodeLoop bf data height pos' rest
          (out ∪ ((bitIndices word).map (fun j => next.start + j)).toFinset)
      else
        decodeLoop bf data height pos' (rest ++ (bitIndices word).map
          (fun j => ⟨next.start + j * bf.value ^ (height - next.depth), next.depth + 1⟩)) out
termination_by 8 * data.length + 1 - pos
decreasing_by
  all_goals
    simp only [readWord] at h
    split at h
    · rename_i hle
      have hv := bf.value_pos
      simp only [Option.some.injEq, Prod.mk.injEq] at h
      omega
    · exact absurd h (by simp)

/-- `IntSet::decode_sparse_bit_set_nodes`. -/
def decode_sparse_bit_set_nodes (bf : BranchFactor) (data : List ℕ) (height : ℕ) :
    Option (Finset ℕ) :=
  if height = 0 then some ∅
  else decodeLoop bf data height 8 [⟨0, 1⟩] ∅

/-- `IntSet::from_sparse_bit_set`. -/
def from_sparse_bit_set (data : List ℕ) : Option (Finset ℕ) :=
  match decode_header data with
  | none => none
  | some (bf, height) => decode_sparse_bit_set_nodes bf data height

/-! ## The encoder (`to_sparse_bit_set_with_bf` and the layer builder) -/

/-- `NodeType`. -/
inductive NodeType where
  | Standard
  | Filled
  | Skip
deriving DecidableEq, Repr

/-- `Node`: one branch-factor-wide group of children at a tree layer. -/
structure Node where
  bits : ℕ
  parentIndex : ℕ
  ntype : NodeType
deriving DecidableEq, Repr

/-- `IntSet::last()` — the largest element, if any (collaborator
contract: `lastValue()`, optional-valued). -/
def lastValue (S : Finset ℕ) : Option ℕ :=
  if h : S.Nonempty then some (S.max' h) else none

/-- The ascending iteration of an `IntSet`, reversed: `set.iter().rev()`. -/
def descList (S : Finset ℕ) : List ℕ :=
  (S.sort (· ≤ ·)).reverse

/-- `CreateLayerState` (the `nodes`, `child_count`, `nodes_init_length` and
`branch_factor` fields are carried alongside). -/
structure CLState where
  upper : Finset ℕ
  upperF : Finset ℕ
  current : Option Node
  curFilled : ℕ
  nodes : List Node
  childCount : ℕ
  initLen : ℕ

/-- Apply `f` to the elements with index in `[lo, hi)` — the in-place
mutation of the slice `nodes[lo..hi]`. -/
def mapSegment (lo hi : ℕ) (f : α → α) (l : List α) : List α :=
  l.mapIdx (fun i x => if lo ≤ i ∧ i < hi then f x else x)

/-- `CreateLayerState::commit_current_node`. -/
def commit (bf : BranchFactor) (st : CLState) : CLState :=
  match st.current with
  | none => st
  | some node =>
    let st1 := { st with upper := insert node.parentIndex st.upper, current := none }
    if st.curFilled = bf.u32_mask then
      let st2 := { st1 with upperF := insert node.parentIndex st1.upperF }
      let markSkip : Node → Node := fun child =>
        if node.parentIndex * bf.value ≤ child.parentIndex ∧
            child.parentIndex < (node.parentIndex + 1) * bf.value then
          { child with ntype := .Skip }
        else child
      let st3 :=
        if st.childCount ≤ st.initLen then
          { st2 with
            nodes := mapSegment (st.initLen - st.childCount) st.initLen markSkip st2.nodes }
        else st2
      { st3 with nodes := st3.nodes ++ [{ node with ntype := .Filled }], curFilled := 0 }
    else
      { st1 with nodes := st1.nodes ++ [node], curFilled := 0 }

/-- The body of the `for v in values.iter().rev()` loop of `create_layer`. -/
def processValue (bf : BranchFactor) (F : ℕ → Bool) (st : CLState) (v : ℕ) : CLState :=
  let parentIndex := v / bf.value
  let prevParent := (st.current.map Node.parentIndex).getD parentIndex
  let st := if prevParent ≠ parentIndex then commit bf st else st
  let node := st.current.getD ⟨0, parentIndex, .Standard⟩
  let mask := 1 <<< (v % bf.value)
  { st with current := some { node with bits := node.bits ||| mask },
            curFilled := if F v then st.curFilled ||| mask else st.curFilled }

/-- `create_layer`: compute the nodes for one layer; returns the index set
and the filled-index set for the layer above, and the grown node list. -/
def create_layer (bf : BranchFactor) (values : Finset ℕ) (F : ℕ → Bool)
    (nodes : List Node) : Finset ℕ × Finset ℕ × List Node :=
  let st0 : CLState :=
    { upper := ∅, upperF := ∅, current := none, curFilled := 0,
      nodes := nodes, childCount := values.card, initLen := nodes.length }
  let st := commit bf ((descList values).foldl (processValue bf F) st0)
  (st.upper, st.upperF, st.nodes)

/-- The `while height > 0` loop of `to_sparse_bit_set_with_bf`, threading
`(indices, filled_indices)` upward and accumulating nodes. -/
def buildLayers (bf : BranchFactor) : ℕ → Finset ℕ → (ℕ → Bool) → List Node → List Node
  | 0, _, _, nodes => nodes
  | height + 1, values, F, nodes =>
    let r := create_layer bf values F nodes
    buildLayers bf height r.1 (fun v => decide (v ∈ r.2.1)) r.2.2

/-- The final emission `for node in nodes.iter().rev()`: `Standard` nodes
write their bits, `Filled` nodes write the all-zero word, `Skip` nodes
write nothing. -/
def emitWords (nodes : List Node) : List ℕ :=
  nodes.reverse.filterMap (fun n =>
    match n.ntype with
    | .Standard => some n.bits
    | .Filled => some 0
    | .Skip => none)

/-- `to_sparse_bit_set_with_bf`: encode with a fixed branch factor.
The initial filled-index set is `IntSet::all()`, i.e. `fun _ => true`. -/
def to_sparse_bit_set_with_bf (bf : BranchFactor) (S : Finset ℕ) : List ℕ :=
  match lastValue S with
  | none => intoBytes bf 0 []
  | some max_value =>
    let height := bf.tree_height_for max_value
    intoBytes bf height (emitWords (buildLayers bf height S (fun _ => true) []))

/-- The candidate list built by `to_sparse_bit_set` for a non-empty set
with maximum value `max_value`, in branch factor order 2, 4, 8, 32. -/
def candidatesList (S : Finset ℕ) (max_value : ℕ) : List (List ℕ) :=
  (if BranchFactor.Two.tree_height_for max_value < MAX_HEIGHT then
    [to_sparse_bit_set_with_bf .Two S] else []) ++
  (if BranchFactor.Four.tree_height_for max_value < MAX_HEIGHT then
    [to_sparse_bit_set_with_bf .Four S] else []) ++
  (if BranchFactor.Eight.tree_height_for max_value < MAX_HEIGHT then
    [to_sparse_bit_set_with_bf .Eight S] else []) ++
  (if BranchFactor.ThirtyTwo.tree_height_for max_value < MAX_HEIGHT then
    [to_sparse_bit_set_with_bf .ThirtyTwo S] else [])

/-- `Iterator::min_by_key(|f| f.len())`: the first element of minimal
length (on ties the earlier element is kept). -/
def minByLen (l : List (List ℕ)) : Option (List ℕ) :=
  match l with
  | [] => none
  | x :: xs => some (xs.foldl (fun acc c => if c.length < acc.length then c else acc) x)

/-- `IntSet::to_sparse_bit_set`: auto-selecting encoder.  The final
`.unwrap()` is modelled by `Option.getD []`. -/
def to_sparse_bit_set (S : Finset ℕ) : List ℕ :=
  match lastValue S with
  | none => intoBytes .Two 0 []
  | some max_value => (minByLen (candidatesList S max_value)).getD []

/-! ## Kernel-computable twins

The definitions above follow the source; a few of them (`Finset.sort`,
and the well-founded recursions) do not reduce inside the kernel.  For
evaluating the codec on concrete inputs we provide equal, structurally
recursive twins. -/

/-- Ascending sorted list of a multiset of naturals, by insertion sort. -/
def sortedListOf (s : Multiset ℕ) : List ℕ :=
  Quot.liftOn s (List.insertionSort (· ≤ ·)) (fun l l' h =>
    List.eq_of_perm_of_sorted
      ((List.perm_insertionSort _ l).trans (h.trans (List.perm_insertionSort _ l').symm))
      (List.sorted_insertionSort _ l) (List.sorted_insertionSort _ l'))

theorem multiset_sort_eq_sortedListOf (s : Multiset ℕ) :
    Multiset.sort (· ≤ ·) s = sortedListOf s := by
  refine Quot.inductionOn s (fun l => ?_)
  refine List.eq_of_perm_of_sorted ?_ (Multiset.sort_sorted _ _)
    (List.sorted_insertionSort _ l)
  refine (Multiset.coe_eq_coe.mp ?_).trans (List.perm_insertionSort _ l).symm
  exact Multiset.sort_eq _ _

/-- Executable twin of `descList`. -/
def descListE (S : Finset ℕ) : List ℕ :=
  (sortedListOf S.val).reverse

theorem descList_eq_descListE (S : Finset ℕ) : descList S = descListE S := by
  rw [descList, descListE, Finset.sort, multiset_sort_eq_sortedListOf]

/-- Fuel-driven twin of the `tree_height_for` loop. -/
def treeHeightIter (l : ℕ) : ℕ → ℕ → ℕ
  | 0, _ => 1
  | fuel + 1, m => if m >>> l = 0 then 1 else 1 + treeHeightIter l fuel (m >>> l)

theorem tree_height_for_eq_iter (bf : BranchFactor) :
    ∀ fuel m, m ≤ fuel →
      bf.tree_height_for m = treeHeightIter bf.node_size_log2 fuel m := by
  intro fuel
  induction fuel with
  | zero =>
    intro m hm
    interval_cases m
    rw [BranchFactor.tree_height_for]
    simp [treeHeightIter]
  | succ fuel ih =>
    intro m hm
    rw [BranchFactor.tree_height_for, treeHeightIter]
    split
    · rfl
    · rename_i h
      have hm0 : m ≠ 0 := by intro hz; simp [hz] at h
      have hlt : m >>> bf.node_size_log2 < m := by
        rw [Nat.shiftRight_eq_div_pow]
        exact Nat.div_lt_self (Nat.pos_of_ne_zero hm0)
          (Nat.one_lt_two_pow_iff.mpr (by have := bf.node_size_log2_pos; omega))
      rw [ih _ (by omega)]

/-- Executable twin of `tree_height_for`. -/
def tree_height_forE (bf : BranchFactor) (m : ℕ) : ℕ :=
  treeHeightIter bf.node_size_log2 m m

theorem tree_height_for_eq_E (bf : BranchFactor) (m : ℕ) :
    bf.tree_height_for m = tree_height_forE bf m :=
  tree_height_for_eq_iter bf m m le_rfl

/-- Fuel-driven twin of `bytesOfBits`. -/
def bytesOfBitsIter : ℕ → List ℕ → List ℕ
  | 0, _ => []
  | _ + 1, [] => []
  | fuel + 1, b :: rest => byteOfBits (b :: rest.take 7) :: bytesOfBitsIter fuel (rest.drop 7)

theorem bytesOfBits_eq_iter :
    ∀ fuel bits, bits.length ≤ fuel → bytesOfBits bits = bytesOfBitsIter fuel bits := by
  intro fuel
  induction fuel with
  | zero =>
    intro bits h
    have : bits = [] := List.length_eq_zero.mp (by omega)
    subst this
    rw [bytesOfBits]
    rfl
  | succ fuel ih =>
    intro bits h
    match bits with
    | [] => rw [bytesOfBits]; rfl
    | b :: rest =>
      rw [bytesOfBits, bytesOfBitsIter, ih]
      simp only [List.length_drop]
      simp only [List.length_cons] at h
      omega

/-- Executable twin of `intoBytes`. -/
def intoBytesE (bf : BranchFactor) (height : ℕ) (words : List ℕ) : List ℕ :=
  headerByte bf height ::
    bytesOfBitsIter ((words.map (toBits bf.value)).flatten).length
      ((words.map (toBits bf.value)).flatten)

theorem intoBytes_eq_E (bf : BranchFactor) (height : ℕ) (words : List ℕ) :
    intoBytes bf height words = intoBytesE bf height words := by
  rw [intoBytes, intoBytesE, bytesOfBits_eq_iter _ _ le_rfl]

/-- Executable twin of `create_layer`. -/
def create_layerE (bf : BranchFactor) (values : Finset ℕ) (F : ℕ → Bool)
    (nodes : List Node) : Finset ℕ × Finset ℕ × List Node :=
  let st0 : CLState :=
    { upper := ∅, upperF := ∅, current := none, curFilled := 0,
      nodes := nodes, childCount := values.card, initLen := nodes.length }
  let st := commit bf ((descListE values).foldl (processValue bf F) st0)
  (st.upper, st.upperF, st.nodes)

theorem create_layer_eq_E (bf : BranchFactor) (values : Finset ℕ) (F : ℕ → Bool)
    (nodes : List Node) : create_layer bf values F nodes = create_layerE bf values F nodes := by
  rw [create_layer, create_layerE, descList_eq_descListE]

/-- Executable twin of `buildLayers`. -/
def buildLayersE (bf : BranchFactor) : ℕ → Finset ℕ → (ℕ → Bool) → List Node → List Node
  | 0, _, _, nodes => nodes
  | height + 1, values, F, nodes =>
    let r := create_layerE bf values F nodes
    buildLayersE bf height r.1 (fun v => decide (v ∈ r.2.1)) r.2.2

theorem buildLayers_eq_E (bf : BranchFactor) :
    ∀ (height : ℕ) (values : Finset ℕ) (F : ℕ → Bool) (nodes : List Node),
      buildLayers bf height values F nodes = buildLayersE bf height values F nodes := by
  intro height
  induction height with
  | zero => intro values F nodes; rfl
  | succ height ih =>
    intro values F nodes
    rw [buildLayers, buildLayersE, create_layer_eq_E, ih]

/-- Executable twin of `to_sparse_bit_set_with_bf`. -/
def to_sparse_bit_set_with_bfE (bf : BranchFactor) (S : Finset ℕ) : List ℕ :=
  match lastValue S with
  | none => intoBytesE bf 0 []
  | some max_value =>
    let height := tree_height_forE bf max_value
    intoBytesE bf height (emitWords (buildLayersE bf height S (fun _ => true) []))

theorem to_sparse_bit_set_with_bf_eq_E (bf : BranchFactor) (S : Finset ℕ) :
    to_sparse_bit_set_with_bf bf S = to_sparse_bit_set_with_bfE bf S := by
  rw [to_sparse_bit_set_with_bf, to_sparse_bit_set_with_bfE]
  cases lastValue S with
  | none => exact intoBytes_eq_E _ _ _
  | some m =>
    simp only [tree_height_for_eq_E, buildLayers_eq_E, intoBytes_eq_E]

/-- Executable twin of `candidatesList`. -/
def candidatesListE (S : Finset ℕ) (max_value : ℕ) : List (List ℕ) :=
  (if tree_height_forE .Two max_value < MAX_HEIGHT then
    [to_sparse_bit_set_with_bfE .Two S] else []) ++
  (if tree_height_forE .Four max_value < MAX_HEIGHT then
    [to_sparse_bit_set_with_bfE .Four S] else []) ++
  (if tree_height_forE .Eight max_value < MAX_HEIGHT then
    [to_sparse_bit_set_with_bfE .Eight S] else []) ++
  (if tree_height_forE .ThirtyTwo max_value < MAX_HEIGHT then
    [to_sparse_bit_set_with_bfE .ThirtyTwo S] else [])

theorem candidatesList_eq_E (S : Finset ℕ) (m : ℕ) :
    candidatesList S m = candidatesListE S m := by
  rw [candidatesList, candidatesListE]
  simp only [tree_height_for_eq_E, to_sparse_bit_set_with_bf_eq_E]

/-- Executable twin of `to_sparse_bit_set`. -/
def to_sparse_bit_setE (S : Finset ℕ) : List ℕ :=
  match lastValue S with
  | none => intoBytesE .Two 0 []
  | some max_value => (minByLen (candidatesListE S max_value)).getD []

theorem to_sparse_bit_set_eq_E (S : Finset ℕ) :
    to_sparse_bit_set S = to_sparse_bit_setE S := by
  rw [to_sparse_bit_set, to_sparse_bit_setE]
  cases lastValue S with
  | none => exact intoBytes_eq_E _ _ _
  | some m => simp only [candidatesList_eq_E]

/-- Fuel-driven twin of the decoder loop. -/
def decodeLoopF (bf : BranchFactor) (data : List ℕ) (height : ℕ) :
    ℕ → ℕ → List NextNode → Finset ℕ → Option (Finset ℕ)
  | _, _, [], out => some out
  | 0, _, _ :: _, _ => none
  | fuel + 1, pos, next :: rest, out =>
    match readWord bf.value data pos with
    | none => none
    | some (word, pos') =>
      if word = 0 then
        decodeLoopF bf data height fuel pos' rest
          (out ∪ Finset.Icc next.start (next.start + bf.value ^ (height - next.depth + 1) - 1))
      else if next.depth = height then
        decodeLoopF bf data height fuel pos' rest
          (out ∪ ((bitIndices word).map (fun j => next.start + j)).toFinset)
      else
        decodeLoopF bf data height fuel pos' (rest ++ (bitIndices word).map
          (fun j => ⟨next.start + j * bf.value ^ (height - next.depth), next.depth + 1⟩)) out

theorem readWord_some_bounds {w : ℕ} {data : List ℕ} {pos : ℕ} {word pos' : ℕ}
    (h : readWord w data pos = some (word, pos')) :
    pos' = pos + w ∧ pos + w ≤ 8 * data.length ∧ word = wordAt data pos w := by
  rw [readWord] at h
  split at h
  · simp only [Option.some.injEq, Prod.mk.injEq] at h
    refine ⟨h.2.symm, by assumption, h.1.symm⟩
  · exact absurd h (by simp)

theorem decodeLoopF_cons (bf : BranchFactor) (data : List ℕ) (height fuel pos : ℕ)
    (next : NextNode) (rest : List NextNode) (out : Finset ℕ) :
    decodeLoopF bf data height (fuel + 1) pos (next :: rest) out =
      match readWord bf.value data pos with
      | none => none
      | some (word, pos') =>
        if word = 0 then
          decodeLoopF bf data height fuel pos' rest
            (out ∪ Finset.Icc next.start (next.start + bf.value ^ (height - next.depth + 1) - 1))
        else if next.depth = height then
          decodeLoopF bf data height fuel pos' rest
            (out ∪ ((bitIndices word).map (fun j => next.start + j)).toFinset)
        else
          decodeLoopF bf data height fuel pos' (rest ++ (bitIndices word).map
            (fun j => ⟨next.start + j * bf.value ^ (height - next.depth), next.depth + 1⟩)) out :=
  rfl

theorem decodeLoop_eq_F (bf : BranchFactor) (data : List ℕ) (height : ℕ) :
    ∀ fuel pos queue out, 8 * data.length + 1 - pos ≤ fuel →
      decodeLoop bf data height pos queue out = decodeLoopF bf data height fuel pos queue out := by
  intro fuel
  induction fuel with
  | zero =>
    intro pos queue out hf
    match queue with
    | [] => rw [decodeLoop]; rfl
    | next :: rest =>
      rw [decodeLoop]
      split
      · rfl
      · rename_i word pos' heq
        obtain ⟨h1, h2, h3⟩ := readWord_some_bounds heq
        have := bf.value_pos
        omega
  | succ fuel ih =>
    intro pos queue out hf
    match queue with
    | [] => rw [decodeLoop]; rfl
    | next :: rest =>
      rw [decodeLoop, decodeLoopF_cons]
      split
      · rename_i heq
        rw [heq]
      · rename_i word pos' heq
        rw [heq]
        obtain ⟨h1, h2, h3⟩ := readWord_some_bounds heq
        have hv := bf.value_pos
        by_cases hw : word = 0
        · simp only [if_pos hw]
          exact ih pos' rest _ (by omega)
        · by_cases hd : next.depth = height
          · simp only [if_neg hw, if_pos hd]
            exact ih pos' rest _ (by omega)
          · simp only [if_neg hw, if_neg hd]
            exact ih pos' _ _ (by omega)

/-- Executable twin of `decode_sparse_bit_set_nodes`. -/
def decode_sparse_bit_set_nodesE (bf : BranchFactor) (data : List ℕ) (height : ℕ) :
    Option (Finset ℕ) :=
  if height = 0 then some ∅
  else decodeLoopF bf data height (8 * data.length + 1 - 8) 8 [⟨0, 1⟩] ∅

theorem decode_sparse_bit_set_nodes_eq_E (bf : BranchFactor) (data : List ℕ) (height : ℕ) :
    decode_sparse_bit_set_nodes bf data height = decode_sparse_bit_set_nodesE bf data height := by
  rw [decode_sparse_bit_set_nodes, decode_sparse_bit_set_nodesE]
  split
  · rfl
  · exact decodeLoop_eq_F bf data height _ 8 _ _ le_rfl

/-- Executable twin of `from_sparse_bit_set`. -/
def from_sparse_bit_setE (data : List ℕ) : Option (Finset ℕ) :=
  match decode_header data with
  | none => none
  | some (bf, height) => decode_sparse_bit_set_nodesE bf data height

theorem from_sparse_bit_set_eq_E (data : List ℕ) :
    from_sparse_bit_set data = from_sparse_bit_setE data := by
  rw [from_sparse_bit_set, from_sparse_bit_setE]
  cases decode_header data with
  | none => rfl
  | some p => exact decode_sparse_bit_set_nodes_eq_E p.1 data p.2

/-! ## Properties of `tree_height_for` -/

theorem shiftRight_lt_self {m l : ℕ} (hm : m ≠ 0) (hl : 0 < l) : m >>> l < m := by
  rw [Nat.shiftRight_eq_div_pow]
  exact Nat.div_lt_self (Nat.pos_of_ne_zero hm) (Nat.one_lt_two_pow_iff.mpr (by omega))

theorem one_le_tree_height (bf : BranchFactor) (m : ℕ) : 1 ≤ bf.tree_height_for m := by
  rw [BranchFactor.tree_height_for]
  split <;> omega

theorem lt_pow_tree_height (bf : BranchFactor) : ∀ m, m < bf.value ^ bf.tree_height_for m := by
  intro m
  induction m using Nat.strong_induction_on with
  | _ m ih =>
    rw [BranchFactor.tree_height_for]
    split
    · rename_i h
      rw [Nat.shiftRight_eq_div_pow] at h
      have hlt : m < 2 ^ bf.node_size_log2 :=
        (Nat.div_eq_zero_iff (Nat.two_pow_pos _)).mp h
      simpa [bf.value_eq_two_pow] using hlt
    · rename_i h
      have hm0 : m ≠ 0 := by intro hz; simp [hz] at h
      have hlt := shiftRight_lt_self hm0 bf.node_size_log2_pos
      have ihm := ih _ hlt
      have key : m < 2 ^ bf.node_size_log2 * (m >>> bf.node_size_log2 + 1) := by
        rw [Nat.shiftRight_eq_div_pow, Nat.mul_add, Nat.mul_one]
        have hdm := Nat.div_add_mod m (2 ^ bf.node_size_log2)
        have hmod := Nat.mod_lt m (Nat.two_pow_pos bf.node_size_log2)
        omega
      calc m < 2 ^ bf.node_size_log2 * (m >>> bf.node_size_log2 + 1) := key
        _ ≤ 2 ^ bf.node_size_log2 *
              bf.value ^ bf.tree_height_for (m >>> bf.node_size_log2) :=
          Nat.mul_le_mul_left _ ihm
        _ = bf.value ^ (1 + bf.tree_height_for (m >>> bf.node_size_log2)) := by
          rw [bf.value_eq_two_pow, pow_add, pow_one]

theorem tree_height_le_of_lt_pow (bf : BranchFactor) :
    ∀ m h, 0 < h → m < bf.value ^ h → bf.tree_height_for m ≤ h := by
  intro m
  induction m using Nat.strong_induction_on with
  | _ m ih =>
    intro h hpos hlt
    rw [BranchFactor.tree_height_for]
    split
    · omega
    · rename_i hne
      have hm0 : m ≠ 0 := by intro hz; simp [hz] at hne
      have hdec := shiftRight_lt_self hm0 bf.node_size_log2_pos
      have hge : 2 ^ bf.node_size_log2 ≤ m := by
        by_contra hc
        push_neg at hc
        rw [Nat.shiftRight_eq_div_pow] at hne
        exact hne ((Nat.div_eq_zero_iff (Nat.two_pow_pos _)).mpr hc)
      match h with
      | 1 =>
        rw [pow_one, bf.value_eq_two_pow] at hlt
        omega
      | hp + 2 =>
        have hstep : m >>> bf.node_size_log2 < bf.value ^ (hp + 1) := by
          rw [Nat.shiftRight_eq_div_pow, Nat.div_lt_iff_lt_mul (Nat.two_pow_pos _)]
          calc m < bf.value ^ (hp + 2) := hlt
            _ = bf.value ^ (hp + 1) * bf.value := by rw [pow_succ]
            _ = bf.value ^ (hp + 1) * 2 ^ bf.node_size_log2 := by rw [bf.value_eq_two_pow]
        have := ih _ hdec (hp + 1) (by omega) hstep
        omega

/-! ## Properties of `minByLen` -/

theorem minFoldl_spec (xs : List (List ℕ)) :
    ∀ acc, (xs.foldl (fun acc c => if c.length < acc.length then c else acc) acc = acc ∧
        ∀ c ∈ xs, acc.length ≤ c.length) ∨
      (∃ l1 l2, xs = l1 ++
          (xs.foldl (fun acc c => if c.length < acc.length then c else acc) acc) :: l2 ∧
        (xs.foldl (fun acc c => if c.length < acc.length then c else acc) acc).length <
          acc.length ∧
        (∀ c ∈ l1,
          (xs.foldl (fun acc c => if c.length < acc.length then c else acc) acc).length <
            c.length) ∧
        ∀ c ∈ xs, (xs.foldl (fun acc c => if c.length < acc.length then c else acc) acc).length ≤
          c.length) := by
  induction xs with
  | nil => intro acc; left; exact ⟨rfl, by simp⟩
  | cons x xs ih =>
    intro acc
    simp only [List.foldl_cons]
    by_cases hx : x.length < acc.length
    · rw [if_pos hx]
      rcases ih x with ⟨heq, hle⟩ | ⟨l1, l2, hsplit, hlt, hfirst, hle⟩
      · right
        refine ⟨[], xs, by simp [heq], by rw [heq]; exact hx, by simp, ?_⟩
        intro c hc
        rw [heq]
        rcases List.mem_cons.mp hc with rfl | hc
        · exact le_rfl
        · exact hle c hc
      · right
        refine ⟨x :: l1, l2, by rw [List.cons_append, ← hsplit], by omega, ?_, ?_⟩
        · intro c hc
          rcases List.mem_cons.mp hc with rfl | hc
          · omega
          · exact hfirst c hc
        · intro c hc
          rcases List.mem_cons.mp hc with rfl | hc
          · omega
          · exact hle c hc
    · rw [if_neg hx]
      rcases ih acc with ⟨heq, hle⟩ | ⟨l1, l2, hsplit, hlt, hfirst, hle⟩
      · left
        refine ⟨heq, ?_⟩
        intro c hc
        rcases List.mem_cons.mp hc with rfl | hc
        · omega
        · exact hle c hc
      · right
        refine ⟨x :: l1, l2, by rw [List.cons_append, ← hsplit], hlt, ?_, ?_⟩
        · intro c hc
          rcases List.mem_cons.mp hc with rfl | hc
          · omega
          · exact hfirst c hc
        · intro c hc
          rcases List.mem_cons.mp hc with rfl | hc
          · omega
          · exact hle c hc

theorem minByLen_isSome {l : List (List ℕ)} (h : l ≠ []) : (minByLen l).isSome := by
  match l with
  | [] => exact absurd rfl h
  | x :: xs => rw [minByLen]; rfl

theorem minByLen_spec {l : List (List ℕ)} {r : List ℕ} (h : minByLen l = some r) :
    r ∈ l ∧ (∀ c ∈ l, r.length ≤ c.length) ∧
      ∃ l1 l2, l = l1 ++ r :: l2 ∧ ∀ c ∈ l1, r.length < c.length := by
  match l with
  | [] => simp [minByLen] at h
  | x :: xs =>
    rw [minByLen, Option.some_inj] at h
    rcases minFoldl_spec xs x with ⟨heq, hle⟩ | ⟨l1, l2, hsplit, hlt, hfirst, hle⟩
    · subst h
      rw [heq]
      refine ⟨List.mem_cons_self x xs, ?_, [], xs, rfl, by simp⟩
      intro c hc
      rcases List.mem_cons.mp hc with rfl | hc
      · exact le_rfl
      · exact hle c hc
    · subst h
      set r := xs.foldl (fun acc c => if c.length < acc.length then c else acc) x with hr
      refine ⟨?_, ?_, x :: l1, l2, by rw [List.cons_append, ← hsplit], ?_⟩
      · exact List.mem_cons_of_mem x (hsplit ▸ List.mem_append_right l1 (List.mem_cons_self r l2))
      · intro c hc
        rcases List.mem_cons.mp hc with rfl | hc
        · omega
        · exact hle c hc
      · intro c hc
        rcases List.mem_cons.mp hc with rfl | hc
        · omega
        · exact hfirst c hc


/-! ## Small helper lemmas -/

theorem bytesOfBits_nil : bytesOfBits [] = [] := by
  rw [bytesOfBits]

theorem intoBytes_nil_length (bf : BranchFactor) (height : ℕ) :
    intoBytes bf height [] = [headerByte bf height] := by
  rw [intoBytes]
  simp [bytesOfBits_nil]

theorem lastValue_empty : lastValue (∅ : Finset ℕ) = none := by
  simp [lastValue]

theorem lastValue_mem {S : Finset ℕ} {m : ℕ} (h : lastValue S = some m) : m ∈ S := by
  rw [lastValue] at h
  split at h
  · rename_i hne
    simp only [Option.some_inj] at h
    exact h ▸ S.max'_mem hne
  · exact absurd h (by simp)

theorem encode_mem_candidates {S : Finset ℕ} {m : ℕ} (bf : BranchFactor)
    (h : bf.tree_height_for m < MAX_HEIGHT) :
    to_sparse_bit_set_with_bf bf S ∈ candidatesList S m := by
  rw [candidatesList]
  cases bf
  case Two =>
    refine List.mem_append_left _ (List.mem_append_left _ (List.mem_append_left _ ?_))
    rw [if_pos h]
    exact List.mem_singleton.mpr rfl
  case Four =>
    refine List.mem_append_left _ (List.mem_append_left _ (List.mem_append_right _ ?_))
    rw [if_pos h]
    exact List.mem_singleton.mpr rfl
  case Eight =>
    refine List.mem_append_left _ (List.mem_append_right _ ?_)
    rw [if_pos h]
    exact List.mem_singleton.mpr rfl
  case ThirtyTwo =>
    refine List.mem_append_right _ ?_
    rw [if_pos h]
    exact List.mem_singleton.mpr rfl

theorem thirtytwo_height_le_seven {m : ℕ} (hu : m < 2 ^ 32) :
    BranchFactor.ThirtyTwo.tree_height_for m ≤ 7 := by
  refine tree_height_le_of_lt_pow _ m 7 (by omega) ?_
  calc m < 2 ^ 32 := hu
    _ ≤ BranchFactor.ThirtyTwo.value ^ 7 := by norm_num [BranchFactor.value]

theorem candidatesList_ne_nil {S : Finset ℕ} {m : ℕ} (hu : m < 2 ^ 32) :
    candidatesList S m ≠ [] := by
  intro hE
  have h32 : BranchFactor.ThirtyTwo.tree_height_for m < MAX_HEIGHT := by
    have := thirtytwo_height_le_seven hu
    rw [MAX_HEIGHT]
    omega
  have := encode_mem_candidates (S := S) .ThirtyTwo h32
  rw [hE] at this
  exact absurd this (List.not_mem_nil _)

/-! ## Claim theorems (C2 – C10) -/

/-- C5: for every branch factor and every u32 `maxValue`,
`tree_height_for maxValue` is the smallest positive integer `h` with
`bf^h > maxValue`; in particular it is at least 1, also for `maxValue = 0`. -/
theorem tree_height_for_isLeast (bf : BranchFactor) (max_value : ℕ)
    (hm : max_value < 2 ^ 32) :
    IsLeast {h : ℕ | 0 < h ∧ max_value < bf.value ^ h} (bf.tree_height_for max_value) := by
  constructor
  · exact ⟨one_le_tree_height bf _, lt_pow_tree_height bf _⟩
  · rintro h ⟨hpos, hlt⟩
    exact tree_height_le_of_lt_pow bf _ h hpos hlt

/-- Witness for C5 at `bf = 8`, `maxValue = 323`. -/
theorem tree_height_for_isLeast_witness :
    (323 : ℕ) < 2 ^ 32 ∧
      IsLeast {h : ℕ | 0 < h ∧ 323 < BranchFactor.Eight.value ^ h}
        (BranchFactor.Eight.tree_height_for 323) :=
  ⟨by norm_num, tree_height_for_isLeast .Eight 323 (by norm_num)⟩

/-- C6 (amended): in the auto-selecting encoder a branch factor is
attempted if and only if its required tree height is strictly below
`MAX_HEIGHT = 31` (the code skips a branch factor already at height
exactly 31, although 31 is representable in the 5-bit height field). -/
theorem candidates_iff_height_lt_MAX (S : Finset ℕ) (m : ℕ) :
    candidatesList S m =
      ([BranchFactor.Two, .Four, .Eight, .ThirtyTwo].filter
        (fun bf => bf.tree_height_for m < MAX_HEIGHT)).map
        (fun bf => to_sparse_bit_set_with_bf bf S) := by
  rw [candidatesList]
  by_cases h2 : BranchFactor.Two.tree_height_for m < MAX_HEIGHT <;>
    by_cases h4 : BranchFactor.Four.tree_height_for m < MAX_HEIGHT <;>
      by_cases h8 : BranchFactor.Eight.tree_height_for m < MAX_HEIGHT <;>
        by_cases h32 : BranchFactor.ThirtyTwo.tree_height_for m < MAX_HEIGHT <;>
          simp [List.filter_cons, h2, h4, h8, h32]

/-- C6 counterexample: for the set `{2^30}` the required branch-factor-2
height is exactly 31, which does not exceed the maximum representable
height 31, yet only three candidates are attempted (branch factor 2 is
skipped). -/
theorem candidates_skip_at_exact_max_height :
    BranchFactor.Two.tree_height_for 1073741824 = 31 ∧
    BranchFactor.Four.tree_height_for 1073741824 = 16 ∧
    BranchFactor.Eight.tree_height_for 1073741824 = 11 ∧
    BranchFactor.ThirtyTwo.tree_height_for 1073741824 = 7 ∧
    MAX_HEIGHT = 31 ∧
    (candidatesList {1073741824} 1073741824).length = 3 := by
  refine ⟨?_, ?_, ?_, ?_, rfl, ?_⟩
  · rw [tree_height_for_eq_E]; decide
  · rw [tree_height_for_eq_E]; decide
  · rw [tree_height_for_eq_E]; decide
  · rw [tree_height_for_eq_E]; decide
  · rw [candidatesList_eq_E]; decide

/-- C7: the auto-selecting encoder returns the candidate with the fewest
bytes, and on ties the first-encountered branch factor (order 2, 4, 8, 32)
wins: the returned list is a candidate, is no longer than any candidate,
and every candidate strictly before it in the list is strictly longer. -/
theorem auto_selects_first_minimal (S : Finset ℕ) (m : ℕ) (hm : lastValue S = some m)
    (hu : m < 2 ^ 32) :
    to_sparse_bit_set S ∈ candidatesList S m ∧
    (∀ c ∈ candidatesList S m, (to_sparse_bit_set S).length ≤ c.length) ∧
    ∃ l1 l2, candidatesList S m = l1 ++ to_sparse_bit_set S :: l2 ∧
      ∀ c ∈ l1, (to_sparse_bit_set S).length < c.length := by
  obtain ⟨r, hr⟩ :=
    Option.isSome_iff_exists.mp (minByLen_isSome (candidatesList_ne_nil (S := S) hu))
  have hrt : to_sparse_bit_set S = r := by
    simp only [to_sparse_bit_set, hm, hr, Option.getD_some]
  rw [hrt]
  exact minByLen_spec hr

/-- Witness for C7 at `S = {11, 74, 9358}`. -/
theorem auto_selects_first_minimal_witness :
    lastValue {11, 74, 9358} = some 9358 ∧ (9358 : ℕ) < 2 ^ 32 ∧
    (to_sparse_bit_set {11, 74, 9358} ∈ candidatesList {11, 74, 9358} 9358 ∧
      (∀ c ∈ candidatesList {11, 74, 9358} 9358,
        (to_sparse_bit_set {11, 74, 9358}).length ≤ c.length) ∧
      ∃ l1 l2, candidatesList {11, 74, 9358} 9358 =
          l1 ++ to_sparse_bit_set {11, 74, 9358} :: l2 ∧
        ∀ c ∈ l1, (to_sparse_bit_set {11, 74, 9358}).length < c.length) :=
  ⟨by decide, by norm_num,
    auto_selects_first_minimal {11, 74, 9358} 9358 (by decide) (by norm_num)⟩

/-- C10: for every set of u32 values reaching the final `unwrap`, the
candidate list is non-empty (`min_by_key` returns `Some`), because branch
factor 32 needs height at most 7 for any u32 maximum value and hence
always passes the height feasibility check. -/
theorem to_sparse_bit_set_unwrap_safe (S : Finset ℕ) (hS : ∀ v ∈ S, v < 2 ^ 32)
    (m : ℕ) (hm : lastValue S = some m) :
    BranchFactor.ThirtyTwo.tree_height_for m ≤ 7 ∧
      (minByLen (candidatesList S m)).isSome := by
  have hu : m < 2 ^ 32 := hS m (lastValue_mem hm)
  exact ⟨thirtytwo_height_le_seven hu, minByLen_isSome (candidatesList_ne_nil hu)⟩

/-- Witness for C10 at `S = {5}`. -/
theorem to_sparse_bit_set_unwrap_safe_witness :
    (∀ v ∈ ({5} : Finset ℕ), v < 2 ^ 32) ∧ lastValue ({5} : Finset ℕ) = some 5 ∧
    (BranchFactor.ThirtyTwo.tree_height_for 5 ≤ 7 ∧
      (minByLen (candidatesList {5} 5)).isSome) :=
  ⟨by decide, by decide, to_sparse_bit_set_unwrap_safe {5} (by decide) 5 (by decide)⟩

/-- C3 (amended): the auto-selected encoding is no longer than the forced
encoding for every branch factor that passes the height feasibility check
(`tree_height_for (max) < MAX_HEIGHT`); for the empty set all encodings
are a single byte. -/
theorem auto_le_feasible_forced (S : Finset ℕ) (bf : BranchFactor)
    (h : ∀ m, lastValue S = some m → bf.tree_height_for m < MAX_HEIGHT) :
    (to_sparse_bit_set S).length ≤ (to_sparse_bit_set_with_bf bf S).length := by
  cases hm : lastValue S with
  | none =>
    simp only [to_sparse_bit_set, to_sparse_bit_set_with_bf, hm, intoBytes_nil_length]
    simp
  | some m =>
    have hbf := h m hm
    have hmem := encode_mem_candidates (S := S) bf hbf
    have hne : candidatesList S m ≠ [] := fun hE => by
      rw [hE] at hmem
      exact absurd hmem (List.not_mem_nil _)
    obtain ⟨r, hr⟩ := Option.isSome_iff_exists.mp (minByLen_isSome hne)
    have hrt : to_sparse_bit_set S = r := by
      simp only [to_sparse_bit_set, hm, hr, Option.getD_some]
    rw [hrt]
    exact (minByLen_spec hr).2.1 _ hmem

/-- Witness for C3 at `S = {5}`, branch factor 2. -/
theorem auto_le_feasible_forced_witness :
    (to_sparse_bit_set {5}).length ≤ (to_sparse_bit_set_with_bf .Two {5}).length := by
  refine auto_le_feasible_forced {5} .Two ?_
  intro m hm
  have h5 : lastValue ({5} : Finset ℕ) = some 5 := by decide
  rw [h5, Option.some_inj] at hm
  subst hm
  rw [tree_height_for_eq_E]
  decide

/-- C3 counterexample: for `S = {0,…,7, 2^30}` the auto-selected encoding
has 17 bytes while forcing branch factor 2 yields 16 bytes — the claim
fails for branch factors that the auto-selection skips. -/
theorem auto_longer_than_forced_bf2 :
    (to_sparse_bit_set (Finset.Icc 0 7 ∪ {1073741824})).length = 17 ∧
    (to_sparse_bit_set_with_bf .Two (Finset.Icc 0 7 ∪ {1073741824})).length = 16 := by
  constructor
  · rw [to_sparse_bit_set_eq_E]; decide
  · rw [to_sparse_bit_set_with_bf_eq_E]; decide

/-- C9: with branch factor 8 forced, `{2, 33, 323}` encodes to exactly the
spec-example bytes, and those bytes decode back to exactly `{2, 33, 323}`. -/
theorem spec_example_2_encode_decode :
    to_sparse_bit_set_with_bf .Eight {2, 33, 323} =
      [0b00001110, 0b00100001, 0b00010001, 0b00000001, 0b00000100, 0b00000010, 0b00001000] ∧
    from_sparse_bit_set
      [0b00001110, 0b00100001, 0b00010001, 0b00000001, 0b00000100, 0b00000010, 0b00001000] =
      some {2, 33, 323} := by
  constructor
  · rw [to_sparse_bit_set_with_bf_eq_E]; decide
  · rw [from_sparse_bit_set_eq_E]; decide

/-- C8: encoding the empty set gives exactly one byte — the header with
height field 0 and the smallest branch factor — and decoding any stream
whose header byte declares height 0 yields the empty set regardless of the
remaining bytes (no node words are read). -/
theorem empty_encode_and_height0_decode :
    to_sparse_bit_set (∅ : Finset ℕ) = [headerByte .Two 0] ∧
    headerByte .Two 0 = 0b00000000 ∧
    ∀ (b : ℕ) (rest : List ℕ), (b >>> 2) &&& 31 = 0 →
      from_sparse_bit_set (b :: rest) = some ∅ := by
  refine ⟨?_, rfl, ?_⟩
  · simp only [to_sparse_bit_set, lastValue_empty, intoBytes_nil_length]
  · intro b rest hb
    simp only [from_sparse_bit_set, decode_header, hb, decode_sparse_bit_set_nodes]
    simp

/-- Witness for C8's decoding part at header byte `0b00000001`
(branch factor 4, height 0) followed by a junk byte. -/
theorem empty_encode_and_height0_decode_witness :
    ((0b00000001 : ℕ) >>> 2) &&& 31 = 0 ∧
      from_sparse_bit_set [0b00000001, 99] = some ∅ :=
  ⟨by decide, empty_encode_and_height0_decode.2.2 0b00000001 [99] (by decide)⟩

/-- C4: when the decoder dequeues a pending node and the next word read
from the stream is all-zero, it inserts the full range
`[start, start + bf^(height − depth + 1) − 1]` into the result and
continues with the remaining queue unchanged — no children are enqueued
and no further words are consumed for this subtree. -/
theorem decode_filled_node_step (bf : BranchFactor) (data : List ℕ) (height pos pos' : ℕ)
    (next : NextNode) (rest : List NextNode) (out : Finset ℕ)
    (h : readWord bf.value data pos = some (0, pos')) :
    decodeLoop bf data height pos (next :: rest) out =
      decodeLoop bf data height pos' rest
        (out ∪ Finset.Icc next.start
          (next.start + bf.value ^ (height - next.depth + 1) - 1)) := by
  rw [decodeLoop]
  split
  · rename_i heq
    rw [heq] at h
    exact absurd h (by simp)
  · rename_i word pos'' heq
    rw [heq] at h
    simp only [Option.some_inj, Prod.mk.injEq] at h
    obtain ⟨hw, hp⟩ := h
    subst hw
    subst hp
    rw [if_pos rfl]

/-- Witness for C4: branch factor 8, stream `[6, 0]`, height 1. -/
theorem decode_filled_node_step_witness :
    readWord BranchFactor.Eight.value [6, 0] 8 = some (0, 16) ∧
    decodeLoop .Eight [6, 0] 1 8 [⟨0, 1⟩] ∅ =
      decodeLoop .Eight [6, 0] 1 16 []
        (∅ ∪ Finset.Icc (0 : ℕ) (0 + BranchFactor.Eight.value ^ (1 - 1 + 1) - 1)) :=
  ⟨by decide, decode_filled_node_step .Eight [6, 0] 1 8 16 ⟨0, 1⟩ [] ∅ (by decide)⟩

/-- C2: evaluating the decoder on the 5-byte input whose header declares
height 31 with branch factor 32 and whose single node word is all-zero:
the filled-range computation produces the range `[0, 32^31 − 1]`, whose
upper end exceeds the u32 range — in the Rust code `(32u32).pow(31)`
overflows (a panic under debug assertions, a wrapped bound in release),
contradicting the claim that decoding never overflows. -/
theorem decode_range_exceeds_u32 :
    from_sparse_bit_set [0b01111111, 0, 0, 0, 0] = some (Finset.Icc 0 (32 ^ 31 - 1)) ∧
    2 ^ 32 ≤ 32 ^ 31 - 1 := by
  constructor
  · rw [from_sparse_bit_set_eq_E]
    rfl
  · norm_num

/-! ## Word-level view of the decoder

`wordsFrom` is the sequence of node words the input bit stream can
deliver; `decodeLoopW` is the decoder loop driven by that word sequence
instead of bit positions. -/

def wordsFrom (bf : BranchFactor) (data : List ℕ) (pos : ℕ) : List ℕ :=
  match h : readWord bf.value data pos with
  | none => []
  | some (word, pos') => word :: wordsFrom bf data pos'
termination_by 8 * data.length + 1 - pos
decreasing_by
  simp only [readWord] at h
  split at h
  · rename_i hle
    have hv := bf.value_pos
    simp only [Option.some.injEq, Prod.mk.injEq] at h
    omega
  · exact absurd h (by simp)

def decodeLoopW (b height : ℕ) : List ℕ → List NextNode → Finset ℕ → Option (Finset ℕ)
  | _, [], out => some out
  | [], _ :: _, _ => none
  | word :: ws, next :: rest, out =>
    if word = 0 then
      decodeLoopW b height ws rest
        (out ∪ Finset.Icc next.start (next.start + b ^ (height - next.depth + 1) - 1))
    else if next.depth = height then
      decodeLoopW b height ws rest
        (out ∪ ((bitIndices word).map (fun j => next.start + j)).toFinset)
    else
      decodeLoopW b height ws (rest ++ (bitIndices word).map
        (fun j => ⟨next.start + j * b ^ (height - next.depth), next.depth + 1⟩)) out

theorem wordsFrom_cons {bf : BranchFactor} {data : List ℕ} {pos : ℕ} {word pos' : ℕ}
    (h : readWord bf.value data pos = some (word, pos')) :
    wordsFrom bf data pos = word :: wordsFrom bf data pos' := by
  rw [wordsFrom]
  split
  · rename_i heq
    rw [heq] at h
    exact absurd h (by simp)
  · rename_i w p heq
    rw [heq] at h
    simp only [Option.some_inj, Prod.mk.injEq] at h
    rw [h.1, h.2]

theorem wordsFrom_nil {bf : BranchFactor} {data : List ℕ} {pos : ℕ}
    (h : readWord bf.value data pos = none) :
    wordsFrom bf data pos = [] := by
  rw [wordsFrom]
  split
  · rfl
  · rename_i w p heq
    rw [heq] at h
    exact absurd h (by simp)

theorem decodeLoop_eq_W (bf : BranchFactor) (data : List ℕ) (height : ℕ) :
    ∀ pos queue out,
      decodeLoop bf data height pos queue out =
        decodeLoopW bf.value height (wordsFrom bf data pos) queue out := by
  have main : ∀ fuel pos queue out, 8 * data.length + 1 - pos ≤ fuel →
      decodeLoop bf data height pos queue out =
        decodeLoopW bf.value height (wordsFrom bf data pos) queue out := by
    intro fuel
    induction fuel with
    | zero =>
      intro pos queue out hf
      match queue with
      | [] => rw [decodeLoop]; cases wordsFrom bf data pos <;> rfl
      | next :: rest =>
        rw [decodeLoop]
        split
        · rename_i heq
          rw [wordsFrom_nil heq]
          rfl
        · rename_i word pos' heq
          obtain ⟨h1, h2, h3⟩ := readWord_some_bounds heq
          have := bf.value_pos
          omega
    | succ fuel ih =>
      intro pos queue out hf
      match queue with
      | [] => rw [decodeLoop]; cases wordsFrom bf data pos <;> rfl
      | next :: rest =>
        rw [decodeLoop]
        split
        · rename_i heq
          rw [wordsFrom_nil heq]
          rfl
        · rename_i word pos' heq
          rw [wordsFrom_cons heq]
          obtain ⟨h1, h2, h3⟩ := readWord_some_bounds heq
          have hv := bf.value_pos
          by_cases hw : word = 0
          · simp only [decodeLoopW, if_pos hw]
            exact ih pos' rest _ (by omega)
          · by_cases hd : next.depth = height
            · simp only [decodeLoopW, if_neg hw, if_pos hd]
              exact ih pos' rest _ (by omega)
            · simp only [decodeLoopW, if_neg hw, if_neg hd]
              exact ih pos' _ _ (by omega)
  intro pos queue out
  exact main _ pos queue out le_rfl

/-! ## The level-order serialization of the tree induced by a set

All definitions are parametrized by the branch factor value `b`, the tree
height `h` and the set `S`.  A node is identified by its index `p` at a
"level exponent" `k` (the node covers the `b^(k+1)` values
`[p·b^(k+1), (p+1)·b^(k+1))`); the root is `p = 0` at `k = h − 1`, leaves
have `k = 0`, and the node's decoder depth is `h − k`. -/

/-- The value range covered by node `p` at level exponent `k`. -/
def rng (b k p : ℕ) : Finset ℕ :=
  Finset.Icc (p * b ^ (k + 1)) ((p + 1) * b ^ (k + 1) - 1)

/-- Which of the `b` children of node `p` at exponent `k` are present:
bit `j` is set when the child's range meets `S` (for `k = 0` the child
range is the single value `p·b + j`). -/
def bitsJ (b : ℕ) (S : Finset ℕ) (k p : ℕ) : List ℕ :=
  (List.range b).filter
    (fun j => (S ∩ Finset.Icc ((p * b + j) * b ^ k) ((p * b + j + 1) * b ^ k - 1)).Nonempty)

/-- The bitmask of the present children. -/
def maskN (b : ℕ) (S : Finset ℕ) (k p : ℕ) : ℕ :=
  (bitsJ b S k p).foldl (fun acc j => acc ||| (1 <<< j)) 0

/-- The node word on the wire: all-zero for a completely filled node,
otherwise the mask of present children. -/
def wordN (b : ℕ) (S : Finset ℕ) (k p : ℕ) : ℕ :=
  if rng b k p ⊆ S then 0 else maskN b S k p

/-- The child indices a node contributes to the next level down: none if
the node is filled or a leaf, otherwise its present children in ascending
order. -/
def childIdxN (b : ℕ) (S : Finset ℕ) (k p : ℕ) : List ℕ :=
  if rng b k p ⊆ S ∨ k = 0 then []
  else (bitsJ b S k p).map (fun j => p * b + j)

/-- Level-order word serialization, starting from the node list `ps` at
level exponent `k` and descending to the leaves. -/
def levelWordsN (b : ℕ) (S : Finset ℕ) : ℕ → List ℕ → List ℕ
  | 0, ps => ps.map (wordN b S 0)
  | k + 1, ps =>
    ps.map (wordN b S (k + 1)) ++
      levelWordsN b S k (ps.flatMap (childIdxN b S (k + 1)))

/-- The pending decoder entry for node `p` at level exponent `k`. -/
def pend (b h k p : ℕ) : NextNode :=
  ⟨p * b ^ (k + 1), h - k⟩

/-- The set contents below a list of nodes at level exponent `k`. -/
def contentsN (b : ℕ) (S : Finset ℕ) (k : ℕ) (ps : List ℕ) : Finset ℕ :=
  ps.foldr (fun p acc => (S ∩ rng b k p) ∪ acc) ∅

/-! ## Arithmetic facts about ranges, masks and bit indices -/

theorem mem_Icc_div {b e q x : ℕ} (hb : 0 < b) :
    x ∈ Finset.Icc (q * b ^ e) ((q + 1) * b ^ e - 1) ↔ x / b ^ e = q := by
  have hB : 0 < b ^ e := Nat.pos_pow_of_pos _ hb
  rw [Finset.mem_Icc]
  have hiff : q * b ^ e ≤ x ∧ x ≤ (q + 1) * b ^ e - 1 ↔
      q * b ^ e ≤ x ∧ x < (q + 1) * b ^ e := by
    have h1 : 1 ≤ (q + 1) * b ^ e := le_trans hB (Nat.le_mul_of_pos_left _ (by omega))
    omega
  rw [hiff]
  constructor
  · rintro ⟨h1, h2⟩
    have hl : q ≤ x / b ^ e := (Nat.le_div_iff_mul_le hB).mpr h1
    have hr : x / b ^ e < q + 1 := (Nat.div_lt_iff_lt_mul hB).mpr h2
    omega
  · intro h
    subst h
    refine ⟨Nat.div_mul_le_self x _, ?_⟩
    have hdm := Nat.div_add_mod x (b ^ e)
    have hmod := Nat.mod_lt x hB
    have hx : x < b ^ e * (x / b ^ e) + b ^ e := by omega
    calc x < b ^ e * (x / b ^ e) + b ^ e := hx
      _ = (x / b ^ e + 1) * b ^ e := by ring

theorem mem_rng_iff {b : ℕ} (hb : 0 < b) {k p x : ℕ} :
    x ∈ rng b k p ↔ x / b ^ (k + 1) = p :=
  mem_Icc_div hb

theorem div_pow_succ_eq (b k x : ℕ) : x / b ^ (k + 1) = x / b ^ k / b := by
  rw [Nat.div_div_eq_div_mul, ← pow_succ]

theorem mul_add_div_eq {b p j : ℕ} (hb : 0 < b) (hj : j < b) : (p * b + j) / b = p := by
  rw [mul_comm, Nat.mul_add_div hb]
  simp [Nat.div_eq_of_lt hj]

theorem mem_bitsJ_iff {b : ℕ} (hb : 0 < b) {S : Finset ℕ} {k p j : ℕ} :
    j ∈ bitsJ b S k p ↔ j < b ∧ ∃ x ∈ S, x / b ^ k = p * b + j := by
  rw [bitsJ, List.mem_filter, List.mem_range]
  constructor
  · rintro ⟨h1, h2⟩
    refine ⟨h1, ?_⟩
    rw [decide_eq_true_eq] at h2
    obtain ⟨x, hx⟩ := h2
    rw [Finset.mem_inter] at hx
    exact ⟨x, hx.1, (mem_Icc_div hb).mp hx.2⟩
  · rintro ⟨h1, x, hxS, hxd⟩
    refine ⟨h1, ?_⟩
    rw [decide_eq_true_eq]
    exact ⟨x, Finset.mem_inter.mpr ⟨hxS, (mem_Icc_div hb).mpr hxd⟩⟩

theorem testBit_foldl_or {js : List ℕ} :
    ∀ (a0 : ℕ) (i : ℕ),
      Nat.testBit (js.foldl (fun acc j => acc ||| (1 <<< j)) a0) i =
        (Nat.testBit a0 i || decide (i ∈ js)) := by
  induction js with
  | nil => intro a0 i; simp
  | cons j js ih =>
    intro a0 i
    rw [List.foldl_cons, ih]
    rw [Nat.testBit_or, Nat.one_shiftLeft, Nat.testBit_two_pow]
    simp only [List.mem_cons]
    by_cases hij : i = j
    · subst hij
      simp
    · have hji : ¬ (j = i) := fun h => hij h.symm
      simp [hij, hji]

theorem testBit_maskN {b : ℕ} {S : Finset ℕ} {k p i : ℕ} :
    Nat.testBit (maskN b S k p) i = decide (i ∈ bitsJ b S k p) := by
  rw [maskN, testBit_foldl_or]
  simp

theorem bitsJ_lt {b : ℕ} {S : Finset ℕ} {k p : ℕ} {j : ℕ}
    (h : j ∈ bitsJ b S k p) : j < b := by
  rw [bitsJ, List.mem_filter] at h
  exact List.mem_range.mp h.1

theorem maskN_lt_two_pow {b : ℕ} (hb : 0 < b) {S : Finset ℕ} {k p : ℕ} :
    maskN b S k p < 2 ^ b := by
  rw [maskN]
  have main : ∀ (js : List ℕ), (∀ j ∈ js, j < b) → ∀ a0, a0 < 2 ^ b →
      js.foldl (fun acc j => acc ||| (1 <<< j)) a0 < 2 ^ b := by
    intro js
    induction js with
    | nil => intro _ a0 ha; exact ha
    | cons j js ih =>
      intro hjs a0 ha
      rw [List.foldl_cons]
      refine ih (fun x hx => hjs x (List.mem_cons_of_mem _ hx)) _ ?_
      refine Nat.or_lt_two_pow ha ?_
      rw [Nat.one_shiftLeft]
      exact Nat.pow_lt_pow_right (by omega) (hjs j (List.mem_cons_self _ _))
  exact main _ (fun j hj => bitsJ_lt hj) 0 (Nat.pos_pow_of_pos _ (by omega))

theorem bitIndices_maskN {b : ℕ} {S : Finset ℕ} {k p : ℕ} (hb : 0 < b) (hb32 : b ≤ 32) :
    bitIndices (maskN b S k p) = bitsJ b S k p := by
  rw [bitIndices]
  have h32 : (32 : ℕ) = b + (32 - b) := by omega
  rw [h32, List.range_add b (32 - b), List.filter_append]
  have h1 : (List.range b).filter (fun j => Nat.testBit (maskN b S k p) j) = bitsJ b S k p := by
    rw [bitsJ]
    refine List.filter_congr ?_
    intro j hj
    rw [testBit_maskN]
    refine decide_eq_decide.mpr ?_
    rw [bitsJ, List.mem_filter]
    simp only [hj, true_and]
    exact ⟨fun h => of_decide_eq_true h, fun h => decide_eq_true h⟩
  have h2 : ((List.range (32 - b)).map (b + ·)).filter
      (fun j => Nat.testBit (maskN b S k p) j) = [] := by
    rw [List.filter_map]
    have hnil : (List.range (32 - b)).filter
        ((fun j => Nat.testBit (maskN b S k p) j) ∘ (b + ·)) = [] := by
      refine List.filter_eq_nil_iff.mpr ?_
      intro j hj
      simp only [Function.comp_apply]
      rw [Nat.testBit_eq_false_of_lt]
      · simp
      · calc maskN b S k p < 2 ^ b := maskN_lt_two_pow hb
          _ ≤ 2 ^ (b + j) := Nat.pow_le_pow_right (by omega) (by omega)
    rw [hnil]
    rfl
  rw [h1, h2, List.append_nil]

theorem maskN_ne_zero {b : ℕ} {S : Finset ℕ} {k p : ℕ} (hb : 0 < b)
    (hpres : (S ∩ rng b k p).Nonempty) : maskN b S k p ≠ 0 := by
  obtain ⟨x, hx⟩ := hpres
  rw [Finset.mem_inter] at hx
  have hxd := (mem_rng_iff hb).mp hx.2
  rw [div_pow_succ_eq] at hxd
  have hdm := Nat.div_add_mod (x / b ^ k) b
  rw [hxd] at hdm
  have hjmem : x / b ^ k % b ∈ bitsJ b S k p := by
    rw [mem_bitsJ_iff hb]
    exact ⟨Nat.mod_lt _ hb, x, hx.1, by rw [mul_comm p b]; omega⟩
  intro hzero
  have htb := testBit_maskN (b := b) (S := S) (k := k) (p := p) (i := x / b ^ k % b)
  rw [hzero, Nat.zero_testBit] at htb
  simp [hjmem] at htb

/-! ## Contents lemmas -/

theorem contentsN_mem {b : ℕ} {S : Finset ℕ} {k : ℕ} :
    ∀ (ps : List ℕ) (x : ℕ), x ∈ contentsN b S k ps ↔ ∃ p ∈ ps, x ∈ S ∩ rng b k p := by
  intro ps
  induction ps with
  | nil => intro x; simp [contentsN]
  | cons p ps ih =>
    intro x
    rw [contentsN] at *
    rw [List.foldr_cons, Finset.mem_union]
    constructor
    · rintro (h | h)
      · exact ⟨p, List.mem_cons_self _ _, h⟩
      · obtain ⟨q, hq, hx⟩ := (ih x).mp h
        exact ⟨q, List.mem_cons_of_mem _ hq, hx⟩
    · rintro ⟨q, hq, hx⟩
      rcases List.mem_cons.mp hq with rfl | hq
      · exact Or.inl hx
      · exact Or.inr ((ih x).mpr ⟨q, hq, hx⟩)

theorem contentsN_append {b : ℕ} {S : Finset ℕ} {k : ℕ} (ps qs : List ℕ) :
    contentsN b S k (ps ++ qs) = contentsN b S k ps ∪ contentsN b S k qs := by
  ext x
  simp only [contentsN_mem, Finset.mem_union, List.mem_append]
  constructor
  · rintro ⟨p, (hp | hp), hx⟩
    · exact Or.inl ⟨p, hp, hx⟩
    · exact Or.inr ⟨p, hp, hx⟩
  · rintro (⟨p, hp, hx⟩ | ⟨p, hp, hx⟩)
    · exact ⟨p, Or.inl hp, hx⟩
    · exact ⟨p, Or.inr hp, hx⟩

/-- A non-filled internal node's contents are the union of its present
children's contents. -/
theorem inter_rng_eq_children {b : ℕ} (hb : 0 < b) {S : Finset ℕ} {k p : ℕ}
    (hk : k ≠ 0) (hnf : ¬ rng b k p ⊆ S) :
    S ∩ rng b k p = contentsN b S (k - 1) (childIdxN b S k p) := by
  obtain ⟨k', rfl⟩ : ∃ k', k = k' + 1 := ⟨k - 1, by omega⟩
  simp only [Nat.add_sub_cancel]
  ext x
  rw [Finset.mem_inter, contentsN_mem]
  constructor
  · rintro ⟨hxS, hxr⟩
    have hxd := (mem_rng_iff hb).mp hxr
    rw [div_pow_succ_eq] at hxd
    have hdm := Nat.div_add_mod (x / b ^ (k' + 1)) b
    rw [hxd] at hdm
    have hchild : x / b ^ (k' + 1) = p * b + x / b ^ (k' + 1) % b := by
      rw [mul_comm p b]
      omega
    have hjmem : x / b ^ (k' + 1) % b ∈ bitsJ b S (k' + 1) p := by
      rw [mem_bitsJ_iff hb]
      exact ⟨Nat.mod_lt _ hb, x, hxS, hchild⟩
    refine ⟨p * b + x / b ^ (k' + 1) % b, ?_, ?_⟩
    · rw [childIdxN, if_neg (by simp [hnf])]
      exact List.mem_map_of_mem _ hjmem
    · rw [Finset.mem_inter]
      refine ⟨hxS, ?_⟩
      simpa [mem_rng_iff hb, Nat.add_sub_cancel] using hchild
  · rintro ⟨q, hq, hx⟩
    rw [childIdxN, if_neg (by simp [hnf])] at hq
    obtain ⟨j, hjmem, rfl⟩ := List.mem_map.mp hq
    rw [Finset.mem_inter] at hx
    refine ⟨hx.1, ?_⟩
    have hxd := (mem_rng_iff hb).mp hx.2
    rw [mem_rng_iff hb, div_pow_succ_eq, hxd]
    exact mul_add_div_eq hb (bitsJ_lt hjmem)

/-- A filled node's contents are its whole range. -/
theorem inter_rng_of_filled {b : ℕ} {S : Finset ℕ} {k p : ℕ}
    (hf : rng b k p ⊆ S) : S ∩ rng b k p = rng b k p :=
  Finset.inter_eq_right.mpr hf

/-- A leaf node's contents are the present values. -/
theorem inter_rng_zero_eq_leaf {b : ℕ} (hb : 0 < b) {S : Finset ℕ} {p : ℕ} :
    S ∩ rng b 0 p = ((bitsJ b S 0 p).map (fun j => p * b + j)).toFinset := by
  ext x
  rw [Finset.mem_inter, List.mem_toFinset, List.mem_map]
  constructor
  · rintro ⟨hxS, hxr⟩
    have hxd := (mem_rng_iff hb).mp hxr
    rw [pow_one] at hxd
    have hdm := Nat.div_add_mod x b
    rw [hxd] at hdm
    refine ⟨x % b, ?_, by rw [mul_comm p b]; omega⟩
    rw [mem_bitsJ_iff hb]
    refine ⟨Nat.mod_lt _ hb, x, hxS, ?_⟩
    rw [pow_zero, Nat.div_one, mul_comm p b]
    omega
  · rintro ⟨j, hjmem, rfl⟩
    have hjb := bitsJ_lt hjmem
    rw [mem_bitsJ_iff hb] at hjmem
    obtain ⟨-, y, hyS, hyd⟩ := hjmem
    rw [pow_zero, Nat.div_one] at hyd
    subst hyd
    refine ⟨hyS, ?_⟩
    rw [mem_rng_iff hb, pow_one]
    exact mul_add_div_eq hb hjb

/-! ## The decoder consumes a level-order serialization correctly -/

theorem decodeLoopW_emptyQ (b h : ℕ) (ws : List ℕ) (out : Finset ℕ) :
    decodeLoopW b h ws [] out = some out := by
  cases ws <;> rfl

theorem decodeLoopW_cons (b h : ℕ) (w : ℕ) (ws : List ℕ) (next : NextNode)
    (rest : List NextNode) (out : Finset ℕ) :
    decodeLoopW b h (w :: ws) (next :: rest) out =
      if w = 0 then
        decodeLoopW b h ws rest
          (out ∪ Finset.Icc next.start (next.start + b ^ (h - next.depth + 1) - 1))
      else if next.depth = h then
        decodeLoopW b h ws rest
          (out ∪ ((bitIndices w).map (fun j => next.start + j)).toFinset)
      else
        decodeLoopW b h ws (rest ++ (bitIndices w).map
          (fun j => ⟨next.start + j * b ^ (h - next.depth), next.depth + 1⟩)) out := rfl

theorem childIdxN_zero (b : ℕ) (S : Finset ℕ) (p : ℕ) : childIdxN b S 0 p = [] := by
  rw [childIdxN, if_pos (Or.inr rfl)]

theorem childIdxN_present {b : ℕ} (hb : 0 < b) {S : Finset ℕ} {k p q : ℕ}
    (hq : q ∈ childIdxN b S k p) : (S ∩ rng b (k - 1) q).Nonempty := by
  rw [childIdxN] at hq
  split at hq
  · exact absurd hq (List.not_mem_nil _)
  · rename_i hcond
    obtain ⟨j, hjmem, rfl⟩ := List.mem_map.mp hq
    rw [mem_bitsJ_iff hb] at hjmem
    obtain ⟨hjb, x, hxS, hxd⟩ := hjmem
    refine ⟨x, Finset.mem_inter.mpr ⟨hxS, ?_⟩⟩
    rw [mem_rng_iff hb]
    have hk1 : k - 1 + 1 = k := by omega
    rw [hk1]
    exact hxd


theorem contentsN_nil (b : ℕ) (S : Finset ℕ) (k : ℕ) : contentsN b S k [] = ∅ := rfl

theorem decodeW_bfs (b h : ℕ) (S : Finset ℕ) (hb : 2 ≤ b) (hb32 : b ≤ 32) :
    ∀ k, k < h →
      ∀ (R C rest : List ℕ) (out : Finset ℕ),
        (∀ p ∈ R, (S ∩ rng b k p).Nonempty) →
        (∀ p ∈ C, (S ∩ rng b (k - 1) p).Nonempty) →
        (k = 0 → C = []) →
        decodeLoopW b h
          (R.map (wordN b S k) ++
            levelWordsN b S (k - 1) (C ++ R.flatMap (childIdxN b S k)) ++ rest)
          (R.map (pend b h k) ++ C.map (pend b h (k - 1))) out =
          some ((out ∪ contentsN b S k R) ∪ contentsN b S (k - 1) C) := by
  have hbpos : 0 < b := by omega
  intro k
  induction k using Nat.strong_induction_on with
  | _ k ihk =>
    intro hk R
    induction R with
    | nil =>
      intro C rest out hR hC hC0
      match C with
      | [] =>
        simp only [List.map_nil, List.flatMap_nil, List.append_nil, List.nil_append]
        rw [decodeLoopW_emptyQ]
        simp [contentsN_nil]
      | c :: C' =>
        have hkpos : k ≠ 0 := by
          intro h0
          exact absurd (hC0 h0) (by simp)
        obtain ⟨k2, rfl⟩ : ∃ k2, k = k2 + 1 := ⟨k - 1, by omega⟩
        have step := ihk k2 (by omega) (by omega) (c :: C') [] rest out
          (by simpa using hC) (by simp) (by simp)
        simp only [List.map_nil, List.flatMap_nil, List.append_nil, List.nil_append,
          Nat.add_sub_cancel, contentsN_nil] at step ⊢
        match k2, step with
        | 0, step =>
          have hflat : (c :: C').flatMap (childIdxN b S 0) = [] := by
            simp [childIdxN_zero]
          rw [hflat] at step
          simp only [levelWordsN, List.map_nil, List.append_nil, Nat.zero_sub] at step ⊢
          rw [step]
          simp
        | k3 + 1, step =>
          simp only [levelWordsN, Nat.add_sub_cancel, List.append_assoc] at step ⊢
          rw [step]
          simp
    | cons r R' ihR =>
      intro C rest out hR hC hC0
      have hpres := hR r (List.mem_cons_self _ _)
      simp only [List.map_cons, List.flatMap_cons, List.cons_append]
      by_cases hfill : rng b k r ⊆ S
      · -- all-zero word: filled node
        have hw : wordN b S k r = 0 := if_pos hfill
        have hchild : childIdxN b S k r = [] := by rw [childIdxN, if_pos (Or.inl hfill)]
        rw [hw, decodeLoopW_cons, if_pos rfl]
        have hdep : h - (pend b h k r).depth + 1 = k + 1 := by
          simp only [pend]
          omega
        have hicc : Finset.Icc (pend b h k r).start
            ((pend b h k r).start + b ^ (h - (pend b h k r).depth + 1) - 1) = rng b k r := by
          rw [hdep]
          simp only [pend, rng]
          congr 1
          rw [add_mul, one_mul]
        rw [hicc]
        have step := ihR C rest (out ∪ rng b k r)
          (fun p hp => hR p (List.mem_cons_of_mem _ hp)) hC hC0
        rw [hchild]
        simp only [List.nil_append]
        rw [step]
        congr 1
        have hcons : contentsN b S k (r :: R') = (S ∩ rng b k r) ∪ contentsN b S k R' := rfl
        rw [hcons, inter_rng_of_filled hfill]
        ext x
        simp only [Finset.mem_union]
        tauto
      · have hw : wordN b S k r = maskN b S k r := if_neg hfill
        have hwne : maskN b S k r ≠ 0 := maskN_ne_zero hbpos hpres
        rw [hw, decodeLoopW_cons, if_neg hwne]
        by_cases hk0 : k = 0
        · -- leaf node
          subst hk0
          have hCnil := hC0 rfl
          subst hCnil
          have hdep : (pend b h 0 r).depth = h := by simp [pend]
          rw [if_pos hdep]
          have hins : ((bitIndices (maskN b S 0 r)).map
              (fun j => (pend b h 0 r).start + j)).toFinset = S ∩ rng b 0 r := by
            rw [bitIndices_maskN hbpos hb32, inter_rng_zero_eq_leaf hbpos]
            congr 1
            refine List.map_congr_left ?_
            intro j hj
            simp [pend, pow_one]
          rw [hins]
          have hchild : childIdxN b S 0 r = [] := childIdxN_zero b S r
          have step := ihR [] rest (out ∪ (S ∩ rng b 0 r))
            (fun p hp => hR p (List.mem_cons_of_mem _ hp)) (by simp) (by simp)
          rw [hchild]
          simp only [List.map_nil, List.append_nil, List.nil_append] at step ⊢
          rw [step]
          congr 1
          have hcons : contentsN b S 0 (r :: R') = (S ∩ rng b 0 r) ∪ contentsN b S 0 R' := rfl
          rw [hcons]
          ext x
          simp only [Finset.mem_union]
          tauto
        · -- internal node
          have hdep : ¬ (pend b h k r).depth = h := by
            simp only [pend]
            omega
          rw [if_neg hdep]
          have henq : (bitIndices (maskN b S k r)).map
              (fun j => (⟨(pend b h k r).start + j * b ^ (h - (pend b h k r).depth),
               (pend b h k r).depth + 1⟩ : NextNode)) =
              (childIdxN b S k r).map (pend b h (k - 1)) := by
            rw [bitIndices_maskN hbpos hb32, childIdxN, if_neg (by tauto), List.map_map]
            refine List.map_congr_left ?_
            intro j hj
            have harith : h - (h - k) = k := by omega
            simp only [Function.comp_apply, pend, harith]
            have h1 : (r * b + j) * b ^ (k - 1 + 1) = r * b ^ (k + 1) + j * b ^ k := by
              have hk1 : k - 1 + 1 = k := by omega
              rw [hk1, add_mul, mul_assoc, ← pow_succ']
            have h2 : h - k + 1 = h - (k - 1) := by omega
            rw [h1, h2]
          rw [henq]
          have step := ihR (C ++ childIdxN b S k r) rest out
            (fun p hp => hR p (List.mem_cons_of_mem _ hp))
            (fun p hp => by
              rcases List.mem_append.mp hp with hp | hp
              · exact hC p hp
              · exact childIdxN_present hbpos hp)
            (fun h0 => absurd h0 hk0)
          rw [List.map_append] at step
          rw [show C ++ (childIdxN b S k r ++ R'.flatMap (childIdxN b S k)) =
            (C ++ childIdxN b S k r) ++ R'.flatMap (childIdxN b S k) from
            (List.append_assoc _ _ _).symm]
          rw [show (List.map (pend b h k) R' ++ List.map (pend b h (k - 1)) C) ++
              List.map (pend b h (k - 1)) (childIdxN b S k r) =
            List.map (pend b h k) R' ++ (List.map (pend b h (k - 1)) C ++
              List.map (pend b h (k - 1)) (childIdxN b S k r)) from
            List.append_assoc _ _ _]
          rw [step]
          congr 1
          have hcons : contentsN b S k (r :: R') = (S ∩ rng b k r) ∪ contentsN b S k R' := rfl
          rw [hcons, contentsN_append, inter_rng_eq_children hbpos hk0 hfill]
          generalize contentsN b S (k - 1) (childIdxN b S k r) = X
          generalize contentsN b S k R' = Y
          generalize contentsN b S (k - 1) C = Z
          rw [Finset.union_comm Z X, ← Finset.union_assoc (out ∪ Y) X Z,
            Finset.union_assoc out Y X, Finset.union_comm Y X]

/-! ## Reading back the packed node words -/

theorem byteOfBits_testBit :
    ∀ (chunk : List ℕ), (∀ c ∈ chunk, c ≤ 1) → ∀ j,
      (byteOfBits chunk) >>> j &&& 1 = chunk.getD j 0 := by
  intro chunk
  induction chunk with
  | nil => intro _ j; simp [byteOfBits]
  | cons c cs ih =>
    intro hb j
    have hc : c ≤ 1 := hb c (List.mem_cons_self _ _)
    match j with
    | 0 =>
      simp only [byteOfBits, Nat.shiftRight_zero, List.getD_cons_zero]
      rw [Nat.and_one_is_mod]
      omega
    | j + 1 =>
      simp only [byteOfBits, List.getD_cons_succ]
      rw [Nat.shiftRight_succ_inside]
      have hdiv : (c + 2 * byteOfBits cs) / 2 = byteOfBits cs := by
        omega
      rw [hdiv]
      exact ih (fun x hx => hb x (List.mem_cons_of_mem _ hx)) j

theorem length_bytesOfBits : ∀ bits : List ℕ, bits.length ≤ 8 * (bytesOfBits bits).length := by
  intro bits
  induction bits using bytesOfBits.induct with
  | case1 => rw [bytesOfBits]; simp
  | case2 b rest ih =>
    rw [bytesOfBits]
    simp only [List.length_cons, List.length_drop] at *
    omega

theorem bytesOfBits_bit :
    ∀ (bits : List ℕ), (∀ c ∈ bits, c ≤ 1) → ∀ i, i < bits.length →
      ((bytesOfBits bits).getD (i / 8) 0) >>> (i % 8) &&& 1 = bits.getD i 0 := by
  intro bits
  induction bits using bytesOfBits.induct with
  | case1 => intro _ i hi; simp at hi
  | case2 b rest ih =>
    intro hb i hi
    rw [bytesOfBits]
    by_cases h8 : i < 8
    · have hdiv : i / 8 = 0 := Nat.div_eq_of_lt h8
      have hmod : i % 8 = i := Nat.mod_eq_of_lt h8
      rw [hdiv, hmod, List.getD_cons_zero]
      have hchunk : ∀ c ∈ b :: rest.take 7, c ≤ 1 := by
        intro c hc
        rcases List.mem_cons.mp hc with rfl | hc
        · exact hb c (List.mem_cons_self _ _)
        · exact hb c (List.mem_cons_of_mem _ (List.mem_of_mem_take hc))
      rw [byteOfBits_testBit _ hchunk i]
      match i, h8 with
      | 0, _ => simp
      | i + 1, h8 =>
        simp only [List.getD_cons_succ]
        have h7 : i < 7 := by omega
        simp [List.getD, List.get?_eq_getElem?, List.getElem?_take, h7]
    · have hdiv : i / 8 = (i - 8) / 8 + 1 := by omega
      have hmod : i % 8 = (i - 8) % 8 := by omega
      rw [hdiv, hmod, List.getD_cons_succ]
      have hlen : i - 8 < (rest.drop 7).length := by
        simp only [List.length_drop]
        simp only [List.length_cons] at hi
        omega
      rw [ih (fun c hc => hb c (List.mem_cons_of_mem _ (List.mem_of_mem_drop hc))) _ hlen]
      have h1 : (rest.drop 7).getD (i - 8) 0 = rest.getD (7 + (i - 8)) 0 := by
        simp [List.getD, List.get?_eq_getElem?, List.getElem?_drop]
      rw [h1]
      have h2 : 7 + (i - 8) = i - 1 := by omega
      rw [h2]
      match i, h8 with
      | i + 1, _ => simp [List.getD_cons_succ]

theorem toBits_le_one {w v : ℕ} : ∀ c ∈ toBits w v, c ≤ 1 := by
  intro c hc
  rw [toBits] at hc
  obtain ⟨j, hj, rfl⟩ := List.mem_map.mp hc
  have : (v >>> j) &&& 1 = (v >>> j) % 2 := Nat.and_one_is_mod _
  omega

theorem toBits_length {w v : ℕ} : (toBits w v).length = w := by
  rw [toBits]
  simp

theorem toBits_getD {w v j : ℕ} (hj : j < w) : (toBits w v).getD j 0 = (v >>> j) &&& 1 := by
  rw [toBits, List.getD, List.get?_eq_getElem?, List.getElem?_map]
  rw [List.getElem?_range hj]
  rfl

theorem flatten_words_getD {b : ℕ} :
    ∀ (ws : List ℕ) (k j : ℕ), k < ws.length → j < b →
      ((ws.map (toBits b)).flatten).getD (k * b + j) 0 = (toBits b (ws.getD k 0)).getD j 0 := by
  intro ws
  induction ws with
  | nil => intro k j hk _; simp at hk
  | cons w ws ih =>
    intro k j hk hj
    simp only [List.map_cons, List.flatten_cons]
    match k with
    | 0 =>
      rw [zero_mul, zero_add]
      have hjl : j < (toBits b w).length := by rw [toBits_length]; exact hj
      rw [List.getD, List.get?_eq_getElem?, List.getElem?_append_left hjl]
      simp [List.getD, List.get?_eq_getElem?]
    | k + 1 =>
      have hidx : (k + 1) * b + j = (toBits b w).length + (k * b + j) := by
        rw [toBits_length]
        ring
      rw [hidx, List.getD, List.get?_eq_getElem?, List.getElem?_append_right (by omega)]
      have : (toBits b w).length + (k * b + j) - (toBits b w).length = k * b + j := by omega
      rw [this]
      have := ih k j (by simpa using hk) hj
      rw [List.getD, List.get?_eq_getElem?] at this
      rw [this]
      rfl

theorem sum_bits_eq : ∀ (b w : ℕ), w < 2 ^ b →
    (((List.range b).map (fun j => ((w >>> j) &&& 1) <<< j)).sum) = w := by
  intro b
  induction b with
  | zero =>
    intro w hw
    interval_cases w
    simp
  | succ b ih =>
    intro w hw
    rw [List.range_succ_eq_map]
    simp only [List.map_cons, List.map_map, List.sum_cons]
    have hterm : ∀ j, ((fun j => ((w >>> j) &&& 1) <<< j) ∘ Nat.succ) j =
        2 * (((w >>> 1 >>> j) &&& 1) <<< j) := by
      intro j
      simp only [Function.comp_apply, Nat.succ_eq_add_one]
      rw [show j + 1 = 1 + j by omega]
      rw [Nat.shiftRight_add, Nat.shiftLeft_eq, Nat.shiftLeft_eq, pow_add, pow_one]
      ring
  -- rewrite map via hterm, factor the 2, apply ih to w >>> 1
    rw [List.map_congr_left (fun j _ => hterm j)]
    have hfact : ((List.range b).map (fun j => 2 * (((w >>> 1 >>> j) &&& 1) <<< j))).sum =
        2 * ((List.range b).map (fun j => ((w >>> 1 >>> j) &&& 1) <<< j)).sum := by
      rw [← List.sum_map_mul_left]
    rw [hfact, ih (w >>> 1) (by
      rw [Nat.shiftRight_one]
      omega)]
    have hlow : (w >>> 0) &&& 1 <<< 0 = w % 2 := by
      simp [Nat.and_one_is_mod]
    simp only [Nat.shiftRight_zero, Nat.shiftLeft_zero, Nat.and_one_is_mod,
      Nat.shiftRight_one]
    omega

/-! ## The packed stream reads back the words that were written -/

theorem flatten_toBits_length {b : ℕ} :
    ∀ ws : List ℕ, ((ws.map (toBits b)).flatten).length = ws.length * b := by
  intro ws
  induction ws with
  | nil => simp
  | cons w ws ih =>
    simp only [List.map_cons, List.flatten_cons, List.length_append, List.length_cons, ih,
      toBits_length]
    ring

theorem flatten_toBits_le_one {b : ℕ} {ws : List ℕ} :
    ∀ c ∈ (ws.map (toBits b)).flatten, c ≤ 1 := by
  intro c hc
  obtain ⟨l, hl, hcl⟩ := List.mem_flatten.mp hc
  obtain ⟨w, _, rfl⟩ := List.mem_map.mp hl
  exact toBits_le_one c hcl

theorem wordAt_intoBytes {bf : BranchFactor} {h : ℕ} {ws : List ℕ} {k : ℕ}
    (hk : k < ws.length) (hw : ∀ w ∈ ws, w < 2 ^ bf.value) :
    wordAt (intoBytes bf h ws) (8 + k * bf.value) bf.value = ws.getD k 0 := by
  have hwk : ws.getD k 0 < 2 ^ bf.value := by
    rw [List.getD_eq_getElem ws 0 hk]
    exact hw _ (List.getElem_mem hk)
  have hbit : ∀ j, j < bf.value →
      bitAt (intoBytes bf h ws) (8 + k * bf.value + j) = ((ws.getD k 0) >>> j) &&& 1 := by
    intro j hj
    have hi8 : (8 + k * bf.value + j) / 8 = (k * bf.value + j) / 8 + 1 := by omega
    have him : (8 + k * bf.value + j) % 8 = (k * bf.value + j) % 8 := by omega
    rw [bitAt, hi8, him, intoBytes, List.getD_cons_succ]
    have hlt : k * bf.value + j < ((ws.map (toBits bf.value)).flatten).length := by
      rw [flatten_toBits_length]
      have : (k + 1) * bf.value ≤ ws.length * bf.value :=
        Nat.mul_le_mul_right _ (by omega)
      have : k * bf.value + j < (k + 1) * bf.value := by
        rw [Nat.succ_mul]
        omega
      omega
    rw [bytesOfBits_bit _ flatten_toBits_le_one _ hlt,
      flatten_words_getD _ _ _ hk (by omega), toBits_getD (by omega)]
  rw [wordAt]
  have hmap : (List.range bf.value).map (fun j => bitAt (intoBytes bf h ws)
        (8 + k * bf.value + j) <<< j) =
      (List.range bf.value).map (fun j => (((ws.getD k 0) >>> j) &&& 1) <<< j) :=
    List.map_congr_left (fun j hj => by rw [hbit j (List.mem_range.mp hj)])
  rw [hmap, sum_bits_eq _ _ hwk]

theorem readWord_intoBytes {bf : BranchFactor} {h : ℕ} {ws : List ℕ} {k : ℕ}
    (hk : k < ws.length) (hw : ∀ w ∈ ws, w < 2 ^ bf.value) :
    readWord bf.value (intoBytes bf h ws) (8 + k * bf.value) =
      some (ws.getD k 0, 8 + (k + 1) * bf.value) := by
  rw [readWord]
  have hbits := length_bytesOfBits ((ws.map (toBits bf.value)).flatten)
  rw [flatten_toBits_length] at hbits
  have hstep : (k + 1) * bf.value ≤ ws.length * bf.value :=
    Nat.mul_le_mul_right _ (by omega)
  rw [Nat.succ_mul] at hstep
  have hle : 8 + k * bf.value + bf.value ≤ 8 * (intoBytes bf h ws).length := by
    rw [intoBytes, List.length_cons]
    omega
  rw [if_pos hle, wordAt_intoBytes hk hw]
  have harith : 8 + k * bf.value + bf.value = 8 + (k + 1) * bf.value := by ring
  rw [harith]

theorem wordsFrom_intoBytes {bf : BranchFactor} {h : ℕ} {ws : List ℕ}
    (hw : ∀ w ∈ ws, w < 2 ^ bf.value) :
    ∃ rest, wordsFrom bf (intoBytes bf h ws) 8 = ws ++ rest := by
  have main : ∀ n k, ws.length - k ≤ n → k ≤ ws.length →
      ∃ rest, wordsFrom bf (intoBytes bf h ws) (8 + k * bf.value) = ws.drop k ++ rest := by
    intro n
    induction n with
    | zero =>
      intro k hn hk
      have hke : k = ws.length := by omega
      subst hke
      exact ⟨wordsFrom bf (intoBytes bf h ws) (8 + ws.length * bf.value), by simp⟩
    | succ n ih =>
      intro k hn hk
      by_cases hkl : k < ws.length
      · obtain ⟨rest, hrest⟩ := ih (k + 1) (by omega) (by omega)
        refine ⟨rest, ?_⟩
        rw [wordsFrom_cons (readWord_intoBytes hkl hw), hrest,
          List.drop_eq_getElem_cons hkl, List.getD_eq_getElem ws 0 hkl]
        rfl
      · have hke : k = ws.length := by omega
        subst hke
        exact ⟨wordsFrom bf (intoBytes bf h ws) (8 + ws.length * bf.value), by simp⟩
  obtain ⟨rest, hrest⟩ := main ws.length 0 (by omega) (by omega)
  refine ⟨rest, ?_⟩
  rw [show (8 : ℕ) + 0 * bf.value = 8 by ring] at hrest
  simpa using hrest

theorem decode_header_intoBytes {bf : BranchFactor} {height : ℕ} {ws : List ℕ}
    (hh : height ≤ 31) :
    decode_header (intoBytes bf height ws) = some (bf, height) := by
  rw [intoBytes]
  rcases bf <;> interval_cases height <;> rfl

/-! ## Closed form of the layer construction: the grouped value loop -/

/-- The bitmask accumulated for one parent group by the encoder loop. -/
def orMask (bf : BranchFactor) (g : List ℕ) : ℕ :=
  g.foldl (fun a v => a ||| 1 <<< (v % bf.value)) 0

/-- The filled-tracking mask accumulated for one parent group. -/
def fMask (bf : BranchFactor) (F : ℕ → Bool) (g : List ℕ) : ℕ :=
  g.foldl (fun a v => if F v then a ||| 1 <<< (v % bf.value) else a) 0

theorem commit_of_none {bf : BranchFactor} {st : CLState} (h : st.current = none) :
    commit bf st = st := by
  rw [commit, h]

theorem commit_current_none (bf : BranchFactor) (st : CLState) :
    (commit bf st).current = none := by
  cases hc : st.current with
  | none => rw [commit, hc]; exact hc
  | some q =>
    rw [commit, hc]
    split_ifs <;> rfl

theorem foldl_group_acc (bf : BranchFactor) (F : ℕ → Bool) (p : ℕ) :
    ∀ (g : List ℕ) (st : CLState) (bits : ℕ),
      st.current = some ⟨bits, p, .Standard⟩ →
      (∀ v ∈ g, v / bf.value = p) →
      g.foldl (processValue bf F) st =
        { st with
          current := some ⟨g.foldl (fun a v => a ||| 1 <<< (v % bf.value)) bits, p, .Standard⟩,
          curFilled := g.foldl (fun a v => if F v then a ||| 1 <<< (v % bf.value) else a)
            st.curFilled } := by
  intro g
  induction g with
  | nil =>
    intro st bits hcur _
    simp only [List.foldl_nil]
    rw [← hcur]
  | cons v g ih =>
    intro st bits hcur hp
    have hv : v / bf.value = p := hp v (List.mem_cons_self _ _)
    rw [List.foldl_cons]
    have hpv : processValue bf F st v =
        { st with current := some ⟨bits ||| 1 <<< (v % bf.value), p, .Standard⟩,
                  curFilled := if F v then st.curFilled ||| 1 <<< (v % bf.value)
                    else st.curFilled } := by
      simp [processValue, hcur, hv]
    rw [hpv, ih _ _ rfl (fun x hx => hp x (List.mem_cons_of_mem _ hx))]
    rfl

theorem foldl_group_none (bf : BranchFactor) (F : ℕ → Bool) {p : ℕ} (v : ℕ) (g : List ℕ)
    (st : CLState) (hcur : st.current = none) (hfil : st.curFilled = 0)
    (hv : v / bf.value = p) (hg : ∀ x ∈ g, x / bf.value = p) :
    (v :: g).foldl (processValue bf F) st =
      { st with current := some ⟨orMask bf (v :: g), p, .Standard⟩,
                curFilled := fMask bf F (v :: g) } := by
  rw [List.foldl_cons]
  have hpv : processValue bf F st v =
      { st with current := some ⟨0 ||| 1 <<< (v % bf.value), p, .Standard⟩,
                curFilled := if F v then 0 ||| 1 <<< (v % bf.value) else 0 } := by
    simp [processValue, hcur, hfil, hv]
  rw [hpv, foldl_group_acc bf F p g _ _ rfl hg]
  simp only [orMask, fMask, List.foldl_cons]

theorem commitGroup_spec (bf : BranchFactor) (F : ℕ → Bool) {p : ℕ} (g : List ℕ)
    (st : CLState) (hcur : st.current = none) (hfil : st.curFilled = 0) (hg : g ≠ [])
    (hp : ∀ v ∈ g, v / bf.value = p) :
    commit bf (g.foldl (processValue bf F) st) =
      if fMask bf F g = bf.u32_mask then
        { st with
          upper := insert p st.upper,
          upperF := insert p st.upperF,
          current := none, curFilled := 0,
          nodes := (if st.childCount ≤ st.initLen then
              mapSegment (st.initLen - st.childCount) st.initLen
                (fun c => if p * bf.value ≤ c.parentIndex ∧
                    c.parentIndex < (p + 1) * bf.value then
                  { c with ntype := .Skip } else c) st.nodes
            else st.nodes) ++ [⟨orMask bf g, p, .Filled⟩] }
      else
        { st with
          upper := insert p st.upper, current := none, curFilled := 0,
          nodes := st.nodes ++ [⟨orMask bf g, p, .Standard⟩] } := by
  match g, hg with
  | v :: g, _ =>
    rw [foldl_group_none bf F v g st hcur hfil (hp v (List.mem_cons_self _ _))
      (fun x hx => hp x (List.mem_cons_of_mem _ hx))]
    rw [commit]
    split_ifs with h1 h2 h3 <;> rfl

theorem commitGroup_curFilled (bf : BranchFactor) (F : ℕ → Bool) {p : ℕ} (g : List ℕ)
    (st : CLState) (hcur : st.current = none) (hfil : st.curFilled = 0) (hg : g ≠ [])
    (hp : ∀ v ∈ g, v / bf.value = p) :
    (commit bf (g.foldl (processValue bf F) st)).curFilled = 0 := by
  rw [commitGroup_spec bf F g st hcur hfil hg hp]
  split_ifs <;> rfl

theorem processValue_commit (bf : BranchFactor) (F : ℕ → Bool) (st : CLState) (v : ℕ)
    (h : ∀ q : Node, st.current = some q → q.parentIndex ≠ v / bf.value) :
    processValue bf F st v = processValue bf F (commit bf st) v := by
  cases hc : st.current with
  | none => rw [commit_of_none hc]
  | some q =>
    have hne : q.parentIndex ≠ v / bf.value := h q hc
    rw [processValue, processValue]
    simp only [hc, Option.map_some', Option.getD_some, Option.map_none', Option.getD_none]
    rw [if_pos (c := q.parentIndex ≠ v / bf.value) hne,
      if_neg (c := ((commit bf st).current.map Node.parentIndex).getD (v / bf.value) ≠
        v / bf.value) (by simp [commit_current_none])]

theorem commit_foldl_append (bf : BranchFactor) (F : ℕ → Bool) {p : ℕ} (g rest : List ℕ)
    (st : CLState) (hcur : st.current = none) (hfil : st.curFilled = 0)
    (hg : g ≠ []) (hp : ∀ v ∈ g, v / bf.value = p)
    (hrest : ∀ v ∈ rest, v / bf.value ≠ p) :
    commit bf ((g ++ rest).foldl (processValue bf F) st) =
      commit bf (rest.foldl (processValue bf F)
        (commit bf (g.foldl (processValue bf F) st))) := by
  rw [List.foldl_append]
  cases rest with
  | nil =>
    simp only [List.foldl_nil]
    rw [commit_of_none (commit_current_none bf _)]
  | cons v r =>
    rw [List.foldl_cons, List.foldl_cons]
    have hstep : processValue bf F (g.foldl (processValue bf F) st) v =
        processValue bf F (commit bf (g.foldl (processValue bf F) st)) v := by
      apply processValue_commit
      intro q hq
      match g, hg with
      | w :: g, _ =>
        rw [foldl_group_none bf F w g st hcur hfil (hp w (List.mem_cons_self _ _))
          (fun x hx => hp x (List.mem_cons_of_mem _ hx))] at hq
        simp only [Option.some.injEq] at hq
        rw [← hq]
        exact fun hcontra => hrest v (List.mem_cons_self _ _) hcontra.symm
    rw [hstep]

theorem commit_foldl_flatten (bf : BranchFactor) (F : ℕ → Bool) :
    ∀ (gs : List (ℕ × List ℕ)) (st : CLState),
      st.current = none → st.curFilled = 0 →
      (∀ pg ∈ gs, pg.2 ≠ [] ∧ ∀ v ∈ pg.2, v / bf.value = pg.1) →
      gs.Pairwise (fun a b => a.1 ≠ b.1) →
      commit bf ((gs.flatMap Prod.snd).foldl (processValue bf F) st) =
        gs.foldl (fun acc pg => commit bf (pg.2.foldl (processValue bf F) acc)) st := by
  intro gs
  induction gs with
  | nil =>
    intro st hc hf _ _
    simp only [List.flatMap_nil, List.foldl_nil]
    exact commit_of_none hc
  | cons pg gs ih =>
    intro st hc hf hgs hpw
    have hhead := hgs pg (List.mem_cons_self _ _)
    have hrest : ∀ v ∈ gs.flatMap Prod.snd, v / bf.value ≠ pg.1 := by
      intro v hv
      obtain ⟨qg, hqg, hvq⟩ := List.mem_flatMap.mp hv
      rw [(hgs qg (List.mem_cons_of_mem _ hqg)).2 v hvq]
      have := (List.pairwise_cons.mp hpw).1 qg hqg
      exact fun hcontra => this hcontra.symm
    rw [List.flatMap_cons,
      commit_foldl_append bf F pg.2 (gs.flatMap Prod.snd) st hc hf hhead.1 hhead.2 hrest,
      List.foldl_cons]
    exact ih _ (commit_current_none bf _)
      (commitGroup_curFilled bf F pg.2 st hc hf hhead.1 hhead.2)
      (fun qg hqg => hgs qg (List.mem_cons_of_mem _ hqg))
      (List.pairwise_cons.mp hpw).2

/-! ## Segment-mutation algebra and the full grouped fold -/

theorem length_mapSegment (lo hi : ℕ) (f : α → α) (l : List α) :
    (mapSegment lo hi f l).length = l.length := by
  rw [mapSegment]
  simp [List.length_mapIdx]

theorem getElem?_mapIdx2 : ∀ (l : List α) (f : ℕ → α → β) (i : ℕ),
    (l.mapIdx f)[i]? = (l[i]?).map (f i) := by
  intro l
  induction l using List.list_reverse_induction with
  | base => intro f i; simp
  | ind l e ih =>
    intro f i
    rw [List.mapIdx_append_one, List.getElem?_append, List.getElem?_append,
      List.length_mapIdx]
    by_cases hi : i < l.length
    · rw [if_pos hi, if_pos hi, ih]
    · rw [if_neg hi, if_neg hi]
      by_cases he : i - l.length < 1
      · have hieq : i = l.length := by omega
        subst hieq
        simp
      · rw [List.getElem?_eq_none (by simp only [List.length_cons, List.length_nil]; omega),
          List.getElem?_eq_none (by simp only [List.length_cons, List.length_nil]; omega)]
        rfl

theorem getElem?_mapSegment (lo hi : ℕ) (f : α → α) (l : List α) (i : ℕ) :
    (mapSegment lo hi f l)[i]? =
      (l[i]?).map (fun x => if lo ≤ i ∧ i < hi then f x else x) := by
  rw [mapSegment, getElem?_mapIdx2]

theorem mapSegment_append {lo hi : ℕ} {f : α → α} {A B : List α} (h : hi ≤ A.length) :
    mapSegment lo hi f (A ++ B) = mapSegment lo hi f A ++ B := by
  apply List.ext
  intro n
  rw [List.get?_eq_getElem?, List.get?_eq_getElem?, getElem?_mapSegment,
    List.getElem?_append, List.getElem?_append, getElem?_mapSegment, length_mapSegment]
  by_cases hn : n < A.length
  · rw [if_pos hn, if_pos hn]
  · rw [if_neg hn, if_neg hn]
    have hc : ¬ (lo ≤ n ∧ n < hi) := by omega
    cases hB : B[n - A.length]? with
    | none => rfl
    | some x => simp [hc]

theorem mapSegment_append_suffix {f : α → α} {A B : List α} :
    mapSegment A.length (A.length + B.length) f (A ++ B) = A ++ B.map f := by
  apply List.ext
  intro n
  rw [List.get?_eq_getElem?, List.get?_eq_getElem?, getElem?_mapSegment,
    List.getElem?_append, List.getElem?_append]
  by_cases hn : n < A.length
  · rw [if_pos hn, if_pos hn]
    have hc : ¬ (A.length ≤ n ∧ n < A.length + B.length) := by omega
    cases hA : A[n]? with
    | none => rfl
    | some x => simp [hc]
  · rw [if_neg hn, if_neg hn, List.getElem?_map]
    cases hB : B[n - A.length]? with
    | none => rfl
    | some x =>
      have hlt : n - A.length < B.length := by
        by_contra hcon
        rw [List.getElem?_eq_none (by omega)] at hB
        exact absurd hB (by simp)
      have hc : A.length ≤ n ∧ n < A.length + B.length := by omega
      simp [hc]

theorem mapSegment_mapSegment {lo hi : ℕ} {f g : α → α} {l : List α} :
    mapSegment lo hi f (mapSegment lo hi g l) = mapSegment lo hi (fun x => f (g x)) l := by
  apply List.ext
  intro n
  rw [List.get?_eq_getElem?, List.get?_eq_getElem?, getElem?_mapSegment, getElem?_mapSegment,
    getElem?_mapSegment, Option.map_map]
  cases hx : l[n]? with
  | none => rfl
  | some x =>
    by_cases hc : lo ≤ n ∧ n < hi <;> simp [hc]

theorem mapSegment_congr {lo hi : ℕ} {f g : α → α} (h : ∀ x, f x = g x) (l : List α) :
    mapSegment lo hi f l = mapSegment lo hi g l := by
  rw [funext h]

theorem mapSegment_id {lo hi : ℕ} {f : α → α} (h : ∀ x, f x = x) (l : List α) :
    mapSegment lo hi f l = l := by
  apply List.ext
  intro n
  rw [List.get?_eq_getElem?, List.get?_eq_getElem?, getElem?_mapSegment]
  cases hx : l[n]? with
  | none => rfl
  | some x => simp [h]

/-- The pointwise effect of the accumulated skip-markings: a previous-layer
node is marked `Skip` when its parent group is in the filled set `P`. -/
def skipIf (b : ℕ) (P : Finset ℕ) (c : Node) : Node :=
  if c.parentIndex / b ∈ P then { c with ntype := .Skip } else c

theorem skipIf_insert (bf : BranchFactor) (hb : 0 < bf.value) (P : Finset ℕ) (p : ℕ)
    (c : Node) :
    (if p * bf.value ≤ (skipIf bf.value P c).parentIndex ∧
        (skipIf bf.value P c).parentIndex < (p + 1) * bf.value then
      { skipIf bf.value P c with ntype := .Skip } else skipIf bf.value P c) =
    skipIf bf.value (insert p P) c := by
  have hpos : 0 < (p + 1) * bf.value := Nat.mul_pos (Nat.succ_pos p) hb
  have hdiv : ∀ x : ℕ, (p * bf.value ≤ x ∧ x < (p + 1) * bf.value) ↔ x / bf.value = p := by
    intro x
    have hm := mem_Icc_div (b := bf.value) (e := 1) (q := p) (x := x) hb
    rw [Finset.mem_Icc, pow_one] at hm
    constructor
    · intro hx
      exact hm.mp ⟨hx.1, by omega⟩
    · intro hx
      have := hm.mpr hx
      exact ⟨this.1, by omega⟩
  simp only [skipIf]
  by_cases hP : c.parentIndex / bf.value ∈ P
  · rw [if_pos hP, if_pos (Finset.mem_insert_of_mem hP)]
    split_ifs <;> rfl
  · rw [if_neg hP]
    by_cases hp : c.parentIndex / bf.value = p
    · rw [if_pos ((hdiv c.parentIndex).mpr hp), if_pos (by rw [hp]; exact Finset.mem_insert_self _ _)]
    · rw [if_neg (fun hcon => hp ((hdiv c.parentIndex).mp hcon)),
        if_neg (by rw [Finset.mem_insert]; push_neg; exact ⟨hp, hP⟩)]

/-- The encoder state mid-layer: original nodes `A` (skip-marked by the
filled groups so far when the guard holds) followed by the new layer so
far. -/
def stAt (bf : BranchFactor) (cc il : ℕ) (A new : List Node) (U UF : Finset ℕ) : CLState :=
  { upper := U, upperF := UF, current := none, curFilled := 0,
    nodes := (if cc ≤ il then mapSegment (il - cc) il (skipIf bf.value UF) A else A) ++ new,
    childCount := cc, initLen := il }

/-- The node a parent group commits. -/
def nodeOf (bf : BranchFactor) (F : ℕ → Bool) (pg : ℕ × List ℕ) : Node :=
  ⟨orMask bf pg.2, pg.1, if fMask bf F pg.2 = bf.u32_mask then .Filled else .Standard⟩

def keysOf (gs : List (ℕ × List ℕ)) : Finset ℕ := (gs.map Prod.fst).toFinset

def filledKeysOf (bf : BranchFactor) (F : ℕ → Bool) (gs : List (ℕ × List ℕ)) : Finset ℕ :=
  ((gs.filter (fun pg => fMask bf F pg.2 = bf.u32_mask)).map Prod.fst).toFinset

theorem foldl_commitGroups (bf : BranchFactor) (F : ℕ → Bool) (hb : 0 < bf.value) :
    ∀ (gs : List (ℕ × List ℕ)) (cc il : ℕ) (A new : List Node) (U UF : Finset ℕ),
      il = A.length →
      (∀ pg ∈ gs, pg.2 ≠ [] ∧ ∀ v ∈ pg.2, v / bf.value = pg.1) →
      gs.foldl (fun acc pg => commit bf (pg.2.foldl (processValue bf F) acc))
          (stAt bf cc il A new U UF) =
        stAt bf cc il A (new ++ gs.map (nodeOf bf F)) (U ∪ keysOf gs)
          (UF ∪ filledKeysOf bf F gs) := by
  intro gs
  induction gs with
  | nil =>
    intro cc il A new U UF hil hgs
    simp [keysOf, filledKeysOf, stAt]
  | cons pg gs ih =>
    intro cc il A new U UF hil hgs
    have hhead := hgs pg (List.mem_cons_self _ _)
    rw [List.foldl_cons, commitGroup_spec bf F pg.2 _ rfl rfl hhead.1 hhead.2]
    by_cases hfil : fMask bf F pg.2 = bf.u32_mask
    · rw [if_pos hfil]
      have hstep :
          ({ stAt bf cc il A new U UF with
             upper := insert pg.1 (stAt bf cc il A new U UF).upper,
             upperF := insert pg.1 (stAt bf cc il A new U UF).upperF,
             current := none, curFilled := 0,
             nodes := (if (stAt bf cc il A new U UF).childCount ≤
                  (stAt bf cc il A new U UF).initLen then
                mapSegment ((stAt bf cc il A new U UF).initLen -
                    (stAt bf cc il A new U UF).childCount)
                  (stAt bf cc il A new U UF).initLen
                  (fun c => if pg.1 * bf.value ≤ c.parentIndex ∧
                      c.parentIndex < (pg.1 + 1) * bf.value then
                    { c with ntype := .Skip } else c) (stAt bf cc il A new U UF).nodes
              else (stAt bf cc il A new U UF).nodes) ++ [⟨orMask bf pg.2, pg.1, .Filled⟩] }
            : CLState) =
          stAt bf cc il A (new ++ [nodeOf bf F pg]) (insert pg.1 U) (insert pg.1 UF) := by
        simp only [stAt]
        by_cases hguard : cc ≤ il
        · rw [if_pos hguard, if_pos hguard, if_pos hguard]
          rw [mapSegment_append (by rw [length_mapSegment]; omega), mapSegment_mapSegment,
            mapSegment_congr (skipIf_insert bf hb UF pg.1) A]
          rw [nodeOf, if_pos hfil, List.append_assoc]
        · rw [if_neg hguard, if_neg hguard, if_neg hguard]
          rw [nodeOf, if_pos hfil, List.append_assoc]
      rw [hstep, ih cc il A (new ++ [nodeOf bf F pg]) (insert pg.1 U) (insert pg.1 UF) hil
        (fun qg hqg => hgs qg (List.mem_cons_of_mem _ hqg))]
      rw [show keysOf (pg :: gs) = insert pg.1 (keysOf gs) from by
        simp [keysOf]]
      rw [show filledKeysOf bf F (pg :: gs) = insert pg.1 (filledKeysOf bf F gs) from by
        simp only [filledKeysOf, List.filter_cons]
        rw [if_pos (by simpa using hfil)]
        simp]
      rw [Finset.union_insert, Finset.union_insert, ← Finset.insert_union,
        ← Finset.insert_union, List.append_assoc]
      rfl
    · rw [if_neg hfil]
      have hstep :
          ({ stAt bf cc il A new U UF with
             upper := insert pg.1 (stAt bf cc il A new U UF).upper,
             current := none, curFilled := 0,
             nodes := (stAt bf cc il A new U UF).nodes ++
               [⟨orMask bf pg.2, pg.1, .Standard⟩] } : CLState) =
          stAt bf cc il A (new ++ [nodeOf bf F pg]) (insert pg.1 U) UF := by
        simp only [stAt]
        rw [nodeOf, if_neg hfil, List.append_assoc]
      rw [hstep, ih cc il A (new ++ [nodeOf bf F pg]) (insert pg.1 U) UF hil
        (fun qg hqg => hgs qg (List.mem_cons_of_mem _ hqg))]
      rw [show keysOf (pg :: gs) = insert pg.1 (keysOf gs) from by simp [keysOf]]
      rw [show filledKeysOf bf F (pg :: gs) = filledKeysOf bf F gs from by
        simp only [filledKeysOf, List.filter_cons]
        rw [if_neg (by simpa using hfil)]]
      rw [Finset.union_insert, ← Finset.insert_union, List.append_assoc]
      rfl

/-! ## Grouping the descending value list by parent index -/

theorem mem_descList {S : Finset ℕ} {v : ℕ} : v ∈ descList S ↔ v ∈ S := by
  simp [descList, Finset.mem_sort]

theorem descList_nodup (S : Finset ℕ) : (descList S).Nodup := by
  rw [descList, List.nodup_reverse]
  exact Finset.sort_nodup _ _

theorem descList_sorted_gt (S : Finset ℕ) : (descList S).Pairwise (· > ·) := by
  rw [descList, List.pairwise_reverse]
  exact Finset.sort_sorted_lt S

theorem descList_toFinset (S : Finset ℕ) : (descList S).toFinset = S := by
  rw [descList, List.toFinset_reverse]
  exact Finset.sort_toFinset _ _

theorem descList_length (S : Finset ℕ) : (descList S).length = S.card := by
  rw [descList, List.length_reverse]
  exact Finset.length_sort _

theorem flatMap_congr_mem {f g : α → List β} :
    ∀ (l : List α), (∀ x ∈ l, f x = g x) → l.flatMap f = l.flatMap g := by
  intro l
  induction l with
  | nil => intro _; rfl
  | cons a l ih =>
    intro h
    rw [List.flatMap_cons, List.flatMap_cons, h a (List.mem_cons_self _ _),
      ih (fun x hx => h x (List.mem_cons_of_mem _ hx))]

theorem perm_flatMap_filter (key : ℕ → ℕ) :
    ∀ (ks : List ℕ) (l : List ℕ), ks.Nodup → (∀ v ∈ l, key v ∈ ks) →
      List.Perm l (ks.flatMap (fun p => l.filter (fun v => key v = p))) := by
  intro ks
  induction ks with
  | nil =>
    intro l _ hl
    have : l = [] := List.eq_nil_iff_forall_not_mem.mpr (fun x hx => by
      have := hl x hx
      simp at this)
    rw [this]
    rfl
  | cons k ks ih =>
    intro l hnd hl
    rw [List.flatMap_cons]
    have hknotin : k ∉ ks := (List.nodup_cons.mp hnd).1
    have hstep := List.filter_append_perm (fun v => decide (key v = k)) l
    refine List.Perm.trans hstep.symm ?_
    apply List.Perm.append_left
    have hsub : ∀ v ∈ l.filter (fun v => !decide (key v = k)), key v ∈ ks := by
      intro v hv
      rw [List.mem_filter] at hv
      have := hl v hv.1
      rcases List.mem_cons.mp this with heq | hmem
      · exact absurd heq (by simpa using hv.2)
      · exact hmem
    have hperm := ih (l.filter (fun v => !decide (key v = k))) (List.nodup_cons.mp hnd).2 hsub
    refine List.Perm.trans hperm ?_
    rw [flatMap_congr_mem ks]
    intro p hp
    have hpk : p ≠ k := fun hc => hknotin (hc ▸ hp)
    rw [List.filter_filter]
    apply List.filter_congr
    intro v _
    by_cases hv : key v = p
    · have hvk : key v ≠ k := by rw [hv]; exact hpk
      simp [hv, hvk, hpk]
    · simp [hv]

/-- The descending value list, regrouped as descending groups of equal
parent index, parents descending. -/
def gsOf (bf : BranchFactor) (V : Finset ℕ) : List (ℕ × List ℕ) :=
  (descList (V.image (fun v => v / bf.value))).map
    (fun p => (p, (descList V).filter (fun v => v / bf.value = p)))

theorem descList_groups (bf : BranchFactor) (V : Finset ℕ) :
    descList V = (gsOf bf V).flatMap Prod.snd := by
  haveI : IsAntisymm ℕ (· > ·) := ⟨fun a b x y => absurd x (not_lt.mpr (le_of_lt y))⟩
  rw [gsOf, List.flatMap_map]
  apply List.eq_of_perm_of_sorted
    (perm_flatMap_filter (fun v => v / bf.value) _ _ (descList_nodup _)
      (fun v hv => by
        rw [mem_descList]
        exact Finset.mem_image_of_mem _ (mem_descList.mp hv)))
    (descList_sorted_gt V)
  rw [List.flatMap_def, List.Sorted, List.pairwise_flatten]
  constructor
  · intro l hl
    obtain ⟨p, hpl, rfl⟩ := List.mem_map.mp hl
    exact (descList_sorted_gt V).filter _
  · rw [List.pairwise_map]
    apply List.Pairwise.imp_of_mem ?_ (descList_sorted_gt _)
    intro p q hp hq hpq x hx y hy
    rw [List.mem_filter] at hx hy
    have hxp : x / bf.value = p := by simpa using hx.2
    have hyq : y / bf.value = q := by simpa using hy.2
    by_contra hcon
    have hxy : x ≤ y := by omega
    have := Nat.div_le_div_right (c := bf.value) hxy
    omega

theorem gsOf_valid (bf : BranchFactor) (V : Finset ℕ) :
    ∀ pg ∈ gsOf bf V, pg.2 ≠ [] ∧ ∀ v ∈ pg.2, v / bf.value = pg.1 := by
  intro pg hpg
  rw [gsOf, List.mem_map] at hpg
  obtain ⟨p, hp, rfl⟩ := hpg
  constructor
  · rw [mem_descList] at hp
    obtain ⟨v, hv, hvp⟩ := Finset.mem_image.mp hp
    apply List.ne_nil_of_mem (a := v)
    rw [List.mem_filter, mem_descList]
    exact ⟨hv, by simpa using hvp⟩
  · intro v hv
    rw [List.mem_filter] at hv
    simpa using hv.2

theorem gsOf_keys_pairwise (bf : BranchFactor) (V : Finset ℕ) :
    (gsOf bf V).Pairwise (fun a b => a.1 ≠ b.1) := by
  rw [gsOf, List.pairwise_map]
  apply List.Pairwise.imp ?_ (descList_sorted_gt _)
  intro a b hab
  simp only []
  omega

theorem skipIf_empty (b : ℕ) (c : Node) : skipIf b ∅ c = c := by
  rw [skipIf, if_neg (Finset.not_mem_empty _)]

theorem keysOf_gsOf (bf : BranchFactor) (V : Finset ℕ) :
    keysOf (gsOf bf V) = V.image (fun v => v / bf.value) := by
  rw [keysOf, gsOf, List.map_map]
  have hcomp : (Prod.fst ∘ fun p => ((p : ℕ),
      (descList V).filter (fun v => v / bf.value = p))) = id := rfl
  rw [hcomp, List.map_id, descList_toFinset]

/-- `create_layer`, in closed form: the returned index set, filled-index
set, and the node list (previous nodes skip-marked on the last-layer
segment, then the new layer's nodes in descending parent order). -/
theorem create_layer_eq (bf : BranchFactor) (V : Finset ℕ) (F : ℕ → Bool)
    (nodes : List Node) (hb : 0 < bf.value) :
    create_layer bf V F nodes =
      (V.image (fun v => v / bf.value),
       filledKeysOf bf F (gsOf bf V),
       (if V.card ≤ nodes.length then
          mapSegment (nodes.length - V.card) nodes.length
            (skipIf bf.value (filledKeysOf bf F (gsOf bf V))) nodes
        else nodes) ++ (gsOf bf V).map (nodeOf bf F)) := by
  rw [create_layer]
  have hst0 : ({ upper := ∅, upperF := ∅, current := none, curFilled := 0,
                 nodes := nodes, childCount := V.card, initLen := nodes.length } : CLState) =
      stAt bf V.card nodes.length nodes [] ∅ ∅ := by
    have hnodes : (if V.card ≤ nodes.length then
        mapSegment (nodes.length - V.card) nodes.length (skipIf bf.value ∅) nodes
      else nodes) ++ ([] : List Node) = nodes := by
      rw [List.append_nil]
      split_ifs with hg
      · exact mapSegment_id (skipIf_empty bf.value) nodes
      · rfl
    rw [stAt, hnodes]
  rw [hst0, descList_groups bf V,
    commit_foldl_flatten bf F (gsOf bf V) _ rfl rfl (gsOf_valid bf V)
      (gsOf_keys_pairwise bf V),
    foldl_commitGroups bf F hb (gsOf bf V) V.card nodes.length nodes [] ∅ ∅ rfl
      (gsOf_valid bf V)]
  rw [stAt]
  simp only [Finset.empty_union, List.nil_append]
  rw [keysOf_gsOf]

/-! ## Layer semantics: parent sets, filled blocks, node masks -/

/-- The value set seen by layer `i` of the encoder: original values divided
by `b^i`. -/
def layerVals (b : ℕ) (S : Finset ℕ) (i : ℕ) : Finset ℕ :=
  S.image (fun v => v / b ^ i)

/-- Block `p` of size `b^i` is completely contained in the set. -/
def filledAt (b : ℕ) (S : Finset ℕ) (i p : ℕ) : Prop :=
  Finset.Icc (p * b ^ i) ((p + 1) * b ^ i - 1) ⊆ S

instance (b : ℕ) (S : Finset ℕ) (i p : ℕ) : Decidable (filledAt b S i p) :=
  inferInstanceAs (Decidable (Finset.Icc (p * b ^ i) ((p + 1) * b ^ i - 1) ⊆ S))

/-- The filled parent indices produced by layer `i`. -/
def FK (b : ℕ) (S : Finset ℕ) (i : ℕ) : Finset ℕ :=
  (layerVals b S (i + 1)).filter (fun q => filledAt b S (i + 1) q)

/-- The node committed by layer `i` for parent `p`, before any later
skip-marking. -/
def layerNode (b : ℕ) (S : Finset ℕ) (i p : ℕ) : Node :=
  ⟨maskN b S i p, p, if filledAt b S (i + 1) p then .Filled else .Standard⟩

/-- Layer `i`'s new nodes, in descending parent order. -/
def rawLayer (b : ℕ) (S : Finset ℕ) (i : ℕ) : List Node :=
  (descList (layerVals b S (i + 1))).map (layerNode b S i)

theorem u32_mask_eq (bf : BranchFactor) : bf.u32_mask = 2 ^ bf.value - 1 := by
  rcases bf <;> rfl

theorem layerVals_zero (b : ℕ) (S : Finset ℕ) : layerVals b S 0 = S := by
  rw [layerVals]
  simp [Nat.div_one]

theorem layerVals_succ (b : ℕ) (S : Finset ℕ) (i : ℕ) :
    layerVals b S (i + 1) = (layerVals b S i).image (fun v => v / b) := by
  rw [layerVals, layerVals, Finset.image_image]
  apply Finset.image_congr
  intro x hx
  simp only [Function.comp_apply]
  exact div_pow_succ_eq b i x

theorem mem_layerVals {b : ℕ} (hb : 0 < b) {S : Finset ℕ} {i q : ℕ} :
    q ∈ layerVals b S i ↔
      (S ∩ Finset.Icc (q * b ^ i) ((q + 1) * b ^ i - 1)).Nonempty := by
  rw [layerVals, Finset.mem_image]
  constructor
  · rintro ⟨x, hx, rfl⟩
    exact ⟨x, Finset.mem_inter.mpr ⟨hx, (mem_Icc_div hb).mpr rfl⟩⟩
  · rintro ⟨x, hx⟩
    rw [Finset.mem_inter] at hx
    exact ⟨x, hx.1, (mem_Icc_div hb).mp hx.2⟩

theorem filledAt_mem {b : ℕ} (hb : 0 < b) {S : Finset ℕ} {i q : ℕ}
    (h : filledAt b S i q) : q ∈ layerVals b S i := by
  rw [mem_layerVals hb]
  have hpow : 0 < b ^ i := Nat.pos_pow_of_pos _ hb
  have hexp : (q + 1) * b ^ i = q * b ^ i + b ^ i := by ring
  have hmem : q * b ^ i ∈ Finset.Icc (q * b ^ i) ((q + 1) * b ^ i - 1) := by
    rw [Finset.mem_Icc]
    omega
  exact ⟨q * b ^ i, Finset.mem_inter.mpr ⟨h hmem, hmem⟩⟩

theorem filled_succ_iff {b : ℕ} (hb : 0 < b) {S : Finset ℕ} {i p : ℕ} :
    filledAt b S (i + 1) p ↔
      ∀ j < b, p * b + j ∈ layerVals b S i ∧ filledAt b S i (p * b + j) := by
  constructor
  · intro h j hj
    have hsub : Finset.Icc ((p * b + j) * b ^ i) ((p * b + j + 1) * b ^ i - 1) ⊆
        Finset.Icc (p * b ^ (i + 1)) ((p + 1) * b ^ (i + 1) - 1) := by
      apply Finset.Icc_subset_Icc
      · have h1 : p * b ^ (i + 1) = (p * b) * b ^ i := by rw [pow_succ]; ring
        rw [h1]
        exact Nat.mul_le_mul_right _ (by omega)
      · have h2 : (p * b + j + 1) * b ^ i ≤ (p + 1) * b ^ (i + 1) := by
          have h3 : (p + 1) * b ^ (i + 1) = (p * b + b) * b ^ i := by rw [pow_succ]; ring
          rw [h3]
          exact Nat.mul_le_mul_right _ (by omega)
        omega
    have hfill : filledAt b S i (p * b + j) := fun x hx => h (hsub hx)
    exact ⟨filledAt_mem hb hfill, hfill⟩
  · intro h x hx
    rw [Finset.mem_Icc] at hx
    have hpow : 0 < b ^ i := Nat.pos_pow_of_pos _ hb
    have hq1 : p * b ≤ x / b ^ i := by
      rw [Nat.le_div_iff_mul_le hpow]
      calc p * b * b ^ i = p * b ^ (i + 1) := by rw [pow_succ]; ring
      _ ≤ x := hx.1
    have hq2 : x / b ^ i < p * b + b := by
      rw [Nat.div_lt_iff_lt_mul hpow]
      have h4 : (p * b + b) * b ^ i = (p + 1) * b ^ (i + 1) := by rw [pow_succ]; ring
      rw [h4]
      have hBpos : 0 < b ^ (i + 1) := Nat.pos_pow_of_pos _ hb
      have hexp2 : (p + 1) * b ^ (i + 1) = p * b ^ (i + 1) + b ^ (i + 1) := by ring
      omega
    obtain ⟨hmem, hfill⟩ := h (x / b ^ i - p * b) (by omega)
    apply hfill
    have heq : p * b + (x / b ^ i - p * b) = x / b ^ i := by omega
    rw [heq]
    exact (mem_Icc_div hb).mpr rfl

theorem mem_grp {bf : BranchFactor} {V : Finset ℕ} {p v : ℕ} :
    v ∈ (descList V).filter (fun v => v / bf.value = p) ↔ v ∈ V ∧ v / bf.value = p := by
  rw [List.mem_filter, mem_descList]
  simp

theorem testBit_orMask (bf : BranchFactor) (g : List ℕ) (i : ℕ) :
    (orMask bf g).testBit i = decide (∃ v ∈ g, v % bf.value = i) := by
  have hmap : orMask bf g =
      (g.map (fun v => v % bf.value)).foldl (fun a j => a ||| 1 <<< j) 0 := by
    rw [orMask, List.foldl_map]
  rw [hmap, testBit_foldl_or, Nat.zero_testBit, Bool.false_or, decide_eq_decide,
    List.mem_map]

theorem fMask_eq_orMask_filter (bf : BranchFactor) (F : ℕ → Bool) (g : List ℕ) :
    fMask bf F g = orMask bf (g.filter F) := by
  have main : ∀ (l : List ℕ) (a : ℕ),
      l.foldl (fun a v => if F v then a ||| 1 <<< (v % bf.value) else a) a =
        (l.filter F).foldl (fun a v => a ||| 1 <<< (v % bf.value)) a := by
    intro l
    induction l with
    | nil => intro a; rfl
    | cons v l ih =>
      intro a
      rw [List.foldl_cons, List.filter_cons]
      by_cases hF : F v
      · rw [if_pos hF, if_pos hF, List.foldl_cons, ih]
      · rw [if_neg hF, if_neg (by simpa using hF), ih]
  rw [fMask, orMask, main]

theorem orMask_grp_eq_maskN (bf : BranchFactor) (hb : 0 < bf.value) (S : Finset ℕ)
    (i p : ℕ) :
    orMask bf ((descList (layerVals bf.value S i)).filter
      (fun v => v / bf.value = p)) = maskN bf.value S i p := by
  apply Nat.eq_of_testBit_eq
  intro j
  rw [testBit_orMask, testBit_maskN, decide_eq_decide]
  constructor
  · rintro ⟨v, hv, rfl⟩
    rw [mem_grp] at hv
    obtain ⟨hvV, hvp⟩ := hv
    rw [mem_bitsJ_iff hb]
    refine ⟨Nat.mod_lt _ hb, ?_⟩
    rw [layerVals, Finset.mem_image] at hvV
    obtain ⟨x, hxS, hxv⟩ := hvV
    refine ⟨x, hxS, ?_⟩
    have hdm := Nat.div_add_mod v bf.value
    rw [hvp, mul_comm bf.value p] at hdm
    omega
  · intro hj
    rw [mem_bitsJ_iff hb] at hj
    obtain ⟨hjb, x, hxS, hxd⟩ := hj
    refine ⟨p * bf.value + j, ?_, ?_⟩
    · rw [mem_grp]
      constructor
      · rw [layerVals, Finset.mem_image]
        exact ⟨x, hxS, hxd⟩
      · rw [mul_comm p bf.value, Nat.mul_add_div hb, Nat.div_eq_of_lt hjb, add_zero]
    · rw [mul_comm p bf.value, Nat.mul_add_mod, Nat.mod_eq_of_lt hjb]

theorem fMask_eq_u32_iff (bf : BranchFactor) (hb : 0 < bf.value) (S : Finset ℕ)
    (i p : ℕ) (F : ℕ → Bool)
    (hF : ∀ v ∈ layerVals bf.value S i, F v = decide (filledAt bf.value S i v)) :
    fMask bf F ((descList (layerVals bf.value S i)).filter
        (fun v => v / bf.value = p)) = bf.u32_mask ↔
      filledAt bf.value S (i + 1) p := by
  rw [fMask_eq_orMask_filter, u32_mask_eq]
  constructor
  · intro h
    rw [filled_succ_iff hb]
    intro j hj
    have htb : (orMask bf (((descList (layerVals bf.value S i)).filter
        (fun v => v / bf.value = p)).filter F)).testBit j =
        (2 ^ bf.value - 1).testBit j := by rw [h]
    rw [testBit_orMask, Nat.testBit_two_pow_sub_one, decide_eq_decide] at htb
    obtain ⟨v, hv, hvj⟩ := htb.mpr hj
    rw [List.mem_filter] at hv
    have hvg := hv.1
    rw [mem_grp] at hvg
    have hFv := hv.2
    rw [hF v hvg.1, decide_eq_true_eq] at hFv
    have hdm := Nat.div_add_mod v bf.value
    rw [hvg.2, mul_comm bf.value p] at hdm
    have hveq : v = p * bf.value + j := by omega
    rw [← hveq]
    exact ⟨hvg.1, hFv⟩
  · intro h
    rw [filled_succ_iff hb] at h
    apply Nat.eq_of_testBit_eq
    intro j
    rw [testBit_orMask, Nat.testBit_two_pow_sub_one, decide_eq_decide]
    constructor
    · rintro ⟨v, hv, rfl⟩
      exact Nat.mod_lt _ hb
    · intro hj
      obtain ⟨hmem, hfill⟩ := h j hj
      refine ⟨p * bf.value + j, ?_, ?_⟩
      · rw [List.mem_filter]
        constructor
        · rw [mem_grp]
          refine ⟨hmem, ?_⟩
          rw [mul_comm p bf.value, Nat.mul_add_div hb, Nat.div_eq_of_lt hj, add_zero]
        · rw [hF _ hmem, decide_eq_true_eq]
          exact hfill
      · rw [mul_comm p bf.value, Nat.mul_add_mod, Nat.mod_eq_of_lt hj]

theorem nodeOf_grp (bf : BranchFactor) (hb : 0 < bf.value) (S : Finset ℕ) (i : ℕ)
    (F : ℕ → Bool)
    (hF : ∀ v ∈ layerVals bf.value S i, F v = decide (filledAt bf.value S i v)) (p : ℕ) :
    nodeOf bf F (p, (descList (layerVals bf.value S i)).filter
        (fun v => v / bf.value = p)) =
      layerNode bf.value S i p := by
  rw [nodeOf, layerNode]
  simp only []
  rw [orMask_grp_eq_maskN bf hb S i p]
  by_cases h : filledAt bf.value S (i + 1) p
  · rw [if_pos ((fMask_eq_u32_iff bf hb S i p F hF).mpr h), if_pos h]
  · rw [if_neg (fun hc => h ((fMask_eq_u32_iff bf hb S i p F hF).mp hc)), if_neg h]

theorem filledKeysOf_eq_FK (bf : BranchFactor) (hb : 0 < bf.value) (S : Finset ℕ)
    (i : ℕ) (F : ℕ → Bool)
    (hF : ∀ v ∈ layerVals bf.value S i, F v = decide (filledAt bf.value S i v)) :
    filledKeysOf bf F (gsOf bf (layerVals bf.value S i)) = FK bf.value S i := by
  rw [filledKeysOf, gsOf, List.filter_map, List.map_map]
  have hcomp : (Prod.fst ∘ fun p => ((p : ℕ), (descList (layerVals bf.value S i)).filter
      (fun v => v / bf.value = p))) = id := rfl
  rw [hcomp, List.map_id, List.toFinset_filter, descList_toFinset, ← layerVals_succ]
  rw [FK]
  apply Finset.filter_congr
  intro q hq
  rw [Function.comp_apply, decide_eq_true_eq]
  exact fMask_eq_u32_iff bf hb S i q F hF

theorem create_layer_layer (bf : BranchFactor) (S : Finset ℕ) (i : ℕ) (F : ℕ → Bool)
    (nodes : List Node) (hb : 0 < bf.value)
    (hF : ∀ v ∈ layerVals bf.value S i, F v = decide (filledAt bf.value S i v)) :
    create_layer bf (layerVals bf.value S i) F nodes =
      (layerVals bf.value S (i + 1),
       FK bf.value S i,
       (if (layerVals bf.value S i).card ≤ nodes.length then
          mapSegment (nodes.length - (layerVals bf.value S i).card) nodes.length
            (skipIf bf.value (FK bf.value S i)) nodes
        else nodes) ++ rawLayer bf.value S i) := by
  rw [create_layer_eq bf _ F nodes hb, filledKeysOf_eq_FK bf hb S i F hF, ← layerVals_succ]
  have hmap : (gsOf bf (layerVals bf.value S i)).map (nodeOf bf F) =
      rawLayer bf.value S i := by
    rw [gsOf, List.map_map, rawLayer, ← layerVals_succ]
    apply List.map_congr_left
    intro p hp
    exact nodeOf_grp bf hb S i F hF p
  rw [hmap]

/-! ## The layered build in closed form -/

/-- Layer `i`'s nodes after the skip-marking done by layer `i+1`. -/
def adjLayer (b : ℕ) (S : Finset ℕ) (i : ℕ) : List Node :=
  (rawLayer b S i).map (skipIf b (FK b S (i + 1)))

/-- Layers `i, i+1, …, i+m-1`, each after its skip-marking. -/
def adjLayers (b : ℕ) (S : Finset ℕ) : ℕ → ℕ → List Node
  | _, 0 => []
  | i, m + 1 => adjLayer b S i ++ adjLayers b S (i + 1) m

theorem rawLayer_length (b : ℕ) (S : Finset ℕ) (i : ℕ) :
    (rawLayer b S i).length = (layerVals b S (i + 1)).card := by
  rw [rawLayer, List.length_map, descList_length]

theorem layerF_zero (b : ℕ) (S : Finset ℕ) :
    ∀ v ∈ layerVals b S 0, (fun _ => true) v = decide (filledAt b S 0 v) := by
  intro v hv
  rw [layerVals_zero] at hv
  have hfv : filledAt b S 0 v := by
    intro x hx
    rw [pow_zero, mul_one, mul_one] at hx
    rw [Finset.mem_Icc] at hx
    have hxv : x = v := by omega
    rw [hxv]
    exact hv
  simp [hfv]

theorem layerF_step (b : ℕ) (S : Finset ℕ) (i : ℕ) :
    ∀ v ∈ layerVals b S (i + 1),
      (fun v => decide (v ∈ FK b S i)) v = decide (filledAt b S (i + 1) v) := by
  intro v hv
  simp only []
  rw [decide_eq_decide, FK, Finset.mem_filter]
  constructor
  · rintro ⟨_, h⟩
    exact h
  · intro h
    exact ⟨hv, h⟩

theorem buildLayers_closed (bf : BranchFactor) (S : Finset ℕ) (hb : 0 < bf.value) :
    ∀ (m i : ℕ) (A L : List Node) (F : ℕ → Bool),
      (∀ v ∈ layerVals bf.value S i, F v = decide (filledAt bf.value S i v)) →
      L.length = (layerVals bf.value S i).card →
      buildLayers bf (m + 1) (layerVals bf.value S i) F (A ++ L) =
        A ++ L.map (skipIf bf.value (FK bf.value S i)) ++
          adjLayers bf.value S i m ++ rawLayer bf.value S (i + m) := by
  intro m
  induction m with
  | zero =>
    intro i A L F hF hL
    have hone : buildLayers bf (0 + 1) (layerVals bf.value S i) F (A ++ L) =
        (create_layer bf (layerVals bf.value S i) F (A ++ L)).2.2 := rfl
    rw [hone, create_layer_layer bf S i F (A ++ L) hb hF]
    have hguard : (layerVals bf.value S i).card ≤ (A ++ L).length := by
      rw [List.length_append]
      omega
    have hlo : (A ++ L).length - (layerVals bf.value S i).card = A.length := by
      rw [List.length_append]
      omega
    have hhi : (A ++ L).length = A.length + L.length := List.length_append A L
    dsimp only
    rw [if_pos hguard, hlo]
    rw [show mapSegment A.length (A ++ L).length (skipIf bf.value (FK bf.value S i))
        (A ++ L) = A ++ L.map (skipIf bf.value (FK bf.value S i)) from by
      rw [hhi]
      exact mapSegment_append_suffix]
    simp [adjLayers, List.append_assoc]
  | succ m ih =>
    intro i A L F hF hL
    have hone : buildLayers bf (m + 1 + 1) (layerVals bf.value S i) F (A ++ L) =
        buildLayers bf (m + 1) (create_layer bf (layerVals bf.value S i) F (A ++ L)).1
          (fun v => decide (v ∈ (create_layer bf (layerVals bf.value S i) F (A ++ L)).2.1))
          (create_layer bf (layerVals bf.value S i) F (A ++ L)).2.2 := rfl
    rw [hone, create_layer_layer bf S i F (A ++ L) hb hF]
    have hguard : (layerVals bf.value S i).card ≤ (A ++ L).length := by
      rw [List.length_append]
      omega
    have hlo : (A ++ L).length - (layerVals bf.value S i).card = A.length := by
      rw [List.length_append]
      omega
    have hhi : (A ++ L).length = A.length + L.length := List.length_append A L
    dsimp only
    rw [if_pos hguard, hlo]
    rw [show mapSegment A.length (A ++ L).length (skipIf bf.value (FK bf.value S i))
        (A ++ L) = A ++ L.map (skipIf bf.value (FK bf.value S i)) from by
      rw [hhi]
      exact mapSegment_append_suffix]
    have hstep := ih (i + 1) (A ++ L.map (skipIf bf.value (FK bf.value S i)))
      (rawLayer bf.value S i) (fun v => decide (v ∈ FK bf.value S i))
      (layerF_step bf.value S i) (rawLayer_length bf.value S i)
    rw [hstep]
    have hadj : (rawLayer bf.value S i).map (skipIf bf.value (FK bf.value S (i + 1))) =
        adjLayer bf.value S i := rfl
    rw [hadj]
    have hidx : i + 1 + m = i + (m + 1) := by omega
    rw [hidx]
    rw [show adjLayers bf.value S i (m + 1) =
      adjLayer bf.value S i ++ adjLayers bf.value S (i + 1) m from rfl]
    simp [List.append_assoc]

theorem buildLayers_full (bf : BranchFactor) (S : Finset ℕ) (hb : 0 < bf.value)
    (hS : S.Nonempty) (h : ℕ) (hh : 1 ≤ h) :
    buildLayers bf h S (fun _ => true) [] =
      adjLayers bf.value S 0 (h - 1) ++ rawLayer bf.value S (h - 1) := by
  match h, hh with
  | m + 1, _ =>
    have hone : buildLayers bf (m + 1) S (fun _ => true) [] =
        buildLayers bf m (create_layer bf S (fun _ => true) []).1
          (fun v => decide (v ∈ (create_layer bf S (fun _ => true) []).2.1))
          (create_layer bf S (fun _ => true) []).2.2 := rfl
    have hcl := create_layer_layer bf S 0 (fun _ => true) [] hb (layerF_zero bf.value S)
    rw [layerVals_zero] at hcl
    rw [hone, hcl]
    have hcard : ¬ S.card ≤ ([] : List Node).length := by
      rw [List.length_nil]
      have := Finset.card_pos.mpr hS
      omega
    dsimp only
    rw [if_neg hcard, List.nil_append]
    cases m with
    | zero =>
      rw [show buildLayers bf 0 (layerVals bf.value S 1)
          (fun v => decide (v ∈ FK bf.value S 0)) (rawLayer bf.value S 0) =
          rawLayer bf.value S 0 from rfl]
      simp [adjLayers]
    | succ m =>
      have hstep := buildLayers_closed bf S hb m 1 [] (rawLayer bf.value S 0)
        (fun v => decide (v ∈ FK bf.value S 0)) (layerF_step bf.value S 0)
        (rawLayer_length bf.value S 0)
      rw [List.nil_append] at hstep
      rw [hstep]
      have hadj : (rawLayer bf.value S 0).map (skipIf bf.value (FK bf.value S 1)) =
          adjLayer bf.value S 0 := rfl
      rw [hadj]
      rw [show adjLayers bf.value S 0 (m + 1 + 1 - 1) =
        adjLayer bf.value S 0 ++ adjLayers bf.value S 1 m from rfl]
      rw [show (1 : ℕ) + m = m + 1 + 1 - 1 from by omega]
      simp [List.append_assoc]

/-! ## Live node lists and the emitted word stream -/

/-- The nodes of level exponent `k` that actually make it onto the wire:
ascending parent indices whose own parent block is not filled. -/
def liveList (b : ℕ) (S : Finset ℕ) (k : ℕ) : List ℕ :=
  ((layerVals b S (k + 1)).sort (· ≤ ·)).filter
    (fun p => !decide (filledAt b S (k + 2) (p / b)))

theorem eq_of_sorted_lt_of_mem_iff :
    ∀ (l₁ l₂ : List ℕ), l₁.Pairwise (· < ·) → l₂.Pairwise (· < ·) →
      (∀ x, x ∈ l₁ ↔ x ∈ l₂) → l₁ = l₂ := by
  intro l₁
  induction l₁ with
  | nil =>
    intro l₂ _ _ hmem
    cases l₂ with
    | nil => rfl
    | cons b t₂ => exact absurd ((hmem b).mpr (List.mem_cons_self _ _)) (by simp)
  | cons a t₁ ih =>
    intro l₂ h₁ h₂ hmem
    cases l₂ with
    | nil => exact absurd ((hmem a).mp (List.mem_cons_self _ _)) (by simp)
    | cons c t₂ =>
      have hac : a = c := by
        rcases List.mem_cons.mp ((hmem a).mp (List.mem_cons_self _ _)) with h | h
        · exact h
        · have hca : c < a := (List.pairwise_cons.mp h₂).1 a h
          rcases List.mem_cons.mp ((hmem c).mpr (List.mem_cons_self _ _)) with h' | h'
          · omega
          · have := (List.pairwise_cons.mp h₁).1 c h'
            omega
      subst hac
      have htails : ∀ x, x ∈ t₁ ↔ x ∈ t₂ := by
        intro x
        constructor
        · intro hx
          have hax : a < x := (List.pairwise_cons.mp h₁).1 x hx
          rcases List.mem_cons.mp ((hmem x).mp (List.mem_cons_of_mem _ hx)) with h | h
          · omega
          · exact h
        · intro hx
          have hax : a < x := (List.pairwise_cons.mp h₂).1 x hx
          rcases List.mem_cons.mp ((hmem x).mpr (List.mem_cons_of_mem _ hx)) with h | h
          · omega
          · exact h
      rw [ih t₂ (List.pairwise_cons.mp h₁).2 (List.pairwise_cons.mp h₂).2 htails]

theorem filledAt_of_parent {b : ℕ} (hb : 0 < b) {S : Finset ℕ} {i q : ℕ}
    (h : filledAt b S (i + 1) (q / b)) : filledAt b S i q := by
  rw [filled_succ_iff hb] at h
  have hmod : q % b < b := Nat.mod_lt _ hb
  have := (h (q % b) hmod).2
  have heq : q / b * b + q % b = q := by
    have hdm := Nat.div_add_mod q b
    rw [mul_comm (q / b) b]
    omega
  rw [heq] at this
  exact this

theorem mem_liveList {b : ℕ} (hb : 0 < b) {S : Finset ℕ} {k p : ℕ} :
    p ∈ liveList b S k ↔ p ∈ layerVals b S (k + 1) ∧ ¬ filledAt b S (k + 2) (p / b) := by
  rw [liveList, List.mem_filter, Finset.mem_sort]
  simp

theorem liveList_pairwise (b : ℕ) (S : Finset ℕ) (k : ℕ) :
    (liveList b S k).Pairwise (· < ·) := by
  rw [liveList]
  exact (Finset.sort_sorted_lt _).filter _

theorem mem_childIdxN {b : ℕ} (hb : 0 < b) {S : Finset ℕ} {k q p : ℕ} :
    p ∈ childIdxN b S (k + 1) q ↔
      ¬ filledAt b S (k + 2) q ∧ p / b = q ∧ p ∈ layerVals b S (k + 1) := by
  rw [childIdxN]
  by_cases hfq : rng b (k + 1) q ⊆ S
  · rw [if_pos (Or.inl hfq)]
    have hfq2 : filledAt b S (k + 2) q := hfq
    simp [hfq2]
  · rw [if_neg (by
      push_neg
      exact ⟨hfq, by omega⟩)]
    rw [List.mem_map]
    constructor
    · rintro ⟨j, hj, rfl⟩
      rw [mem_bitsJ_iff hb] at hj
      obtain ⟨hjb, x, hxS, hxd⟩ := hj
      refine ⟨hfq, ?_, ?_⟩
      · rw [mul_comm q b, Nat.mul_add_div hb, Nat.div_eq_of_lt hjb, add_zero]
      · rw [layerVals, Finset.mem_image]
        exact ⟨x, hxS, hxd⟩
    · rintro ⟨_, hpq, hpV⟩
      refine ⟨p % b, ?_, ?_⟩
      · rw [mem_bitsJ_iff hb]
        refine ⟨Nat.mod_lt _ hb, ?_⟩
        rw [layerVals, Finset.mem_image] at hpV
        obtain ⟨x, hxS, hxd⟩ := hpV
        refine ⟨x, hxS, ?_⟩
        have hdm := Nat.div_add_mod p b
        rw [hpq, mul_comm b q] at hdm
        omega
      · have hdm := Nat.div_add_mod p b
        rw [hpq, mul_comm b q] at hdm
        omega

theorem flatMap_childIdx (b : ℕ) (hb2 : 2 ≤ b) (S : Finset ℕ) (k : ℕ) :
    (liveList b S (k + 1)).flatMap (childIdxN b S (k + 1)) = liveList b S k := by
  have hb : 0 < b := by omega
  apply eq_of_sorted_lt_of_mem_iff
  · rw [List.flatMap_def, List.pairwise_flatten]
    constructor
    · intro l hl
      obtain ⟨q, hq, rfl⟩ := List.mem_map.mp hl
      rw [childIdxN]
      by_cases hc : rng b (k + 1) q ⊆ S ∨ k + 1 = 0
      · rw [if_pos hc]
        exact List.Pairwise.nil
      · rw [if_neg hc]
        rw [List.pairwise_map]
        apply List.Pairwise.imp ?_ ((List.pairwise_lt_range b).filter _)
        intro x y hxy
        omega
    · rw [List.pairwise_map]
      apply List.Pairwise.imp_of_mem ?_ (liveList_pairwise b S (k + 1))
      intro q q' hq hq' hqq' x hx y hy
      rw [mem_childIdxN hb] at hx hy
      have hx2 := hx.2.1
      have hy2 := hy.2.1
      have hxq : x < (q + 1) * b := by
        have hdm := Nat.div_add_mod x b
        have hmod : x % b < b := Nat.mod_lt _ hb
        rw [hx2] at hdm
        have hexp : (q + 1) * b = b * q + b := by ring
        omega
      have hyq : q' * b ≤ y := by
        have hdm := Nat.div_add_mod y b
        rw [hy2] at hdm
        have hexp : q' * b = b * q' := by ring
        omega
      have hstep : (q + 1) * b ≤ q' * b := Nat.mul_le_mul_right _ (by omega)
      omega
  · exact liveList_pairwise b S k
  · intro p
    rw [List.mem_flatMap, mem_liveList hb]
    constructor
    · rintro ⟨q, hq, hpq⟩
      rw [mem_liveList hb] at hq
      rw [mem_childIdxN hb] at hpq
      obtain ⟨hnf, hpdiv, hpV⟩ := hpq
      refine ⟨hpV, ?_⟩
      rw [hpdiv]
      exact hnf
    · rintro ⟨hpV, hnf⟩
      refine ⟨p / b, ?_, ?_⟩
      · rw [mem_liveList hb]
        constructor
        · rw [layerVals, Finset.mem_image] at hpV ⊢
          obtain ⟨x, hxS, hxd⟩ := hpV
          refine ⟨x, hxS, ?_⟩
          rw [div_pow_succ_eq, hxd]
        · intro hcon
          exact hnf (filledAt_of_parent hb hcon)
      · rw [mem_childIdxN hb]
        exact ⟨hnf, rfl, hpV⟩

theorem levelWordsN_live_succ (b : ℕ) (hb2 : 2 ≤ b) (S : Finset ℕ) (k : ℕ) :
    levelWordsN b S (k + 1) (liveList b S (k + 1)) =
      (liveList b S (k + 1)).map (wordN b S (k + 1)) ++
        levelWordsN b S k (liveList b S k) := by
  rw [levelWordsN, flatMap_childIdx b hb2 S k]

/-! ## Emitted words of the built layers -/

theorem filterMap_some_eq_map {f : ℕ → ℕ} {g : ℕ → Option ℕ}
    (h : ∀ x, g x = some (f x)) : ∀ l : List ℕ, l.filterMap g = l.map f := by
  intro l
  induction l with
  | nil => rfl
  | cons a l ih => rw [List.filterMap_cons, h a, List.map_cons, ih]

theorem filterMap_if_eq_filter_map {p : ℕ → Bool} {f : ℕ → ℕ} {g : ℕ → Option ℕ}
    (h : ∀ x, g x = if p x then none else some (f x)) :
    ∀ l : List ℕ, l.filterMap g = (l.filter (fun x => !p x)).map f := by
  intro l
  induction l with
  | nil => rfl
  | cons a l ih =>
    rw [List.filterMap_cons, List.filter_cons, h a]
    by_cases hp : p a
    · rw [if_pos hp, if_neg (by simp [hp]), ih]
    · rw [if_neg hp, if_pos (by simp [hp]), List.map_cons, ih]

theorem emitWords_append (A B : List Node) :
    emitWords (A ++ B) = emitWords B ++ emitWords A := by
  rw [emitWords, emitWords, emitWords, List.reverse_append, List.filterMap_append]

theorem emitWords_nil : emitWords [] = [] := rfl

theorem emitWords_rawLayer (b : ℕ) (S : Finset ℕ) (i : ℕ) :
    emitWords (rawLayer b S i) =
      ((layerVals b S (i + 1)).sort (· ≤ ·)).map (wordN b S i) := by
  rw [emitWords, rawLayer, descList, ← List.map_reverse, List.reverse_reverse,
    List.filterMap_map]
  apply filterMap_some_eq_map
  intro p
  rw [Function.comp_apply, layerNode, wordN]
  by_cases hf : filledAt b S (i + 1) p
  · rw [if_pos hf, if_pos (show rng b i p ⊆ S from hf)]
  · rw [if_neg hf, if_neg (show ¬ rng b i p ⊆ S from hf)]

theorem emitWords_adjLayer (b : ℕ) (hb : 0 < b) (S : Finset ℕ) (i : ℕ) :
    emitWords (adjLayer b S i) = (liveList b S i).map (wordN b S i) := by
  rw [emitWords, adjLayer, rawLayer, descList, List.map_map, ← List.map_reverse,
    List.reverse_reverse, List.filterMap_map, liveList]
  apply filterMap_if_eq_filter_map
  intro p
  rw [Function.comp_apply, Function.comp_apply]
  rw [skipIf, show (layerNode b S i p).parentIndex = p from rfl]
  by_cases hfp : filledAt b S (i + 2) (p / b)
  · have hP : p / b ∈ FK b S (i + 1) :=
      Finset.mem_filter.mpr ⟨filledAt_mem hb hfp, hfp⟩
    rw [if_pos hP,
      if_pos (c := decide (filledAt b S (i + 2) (p / b)) = true) (by simpa using hfp)]
  · have hP : p / b ∉ FK b S (i + 1) := fun hcon => hfp (Finset.mem_filter.mp hcon).2
    rw [if_neg hP,
      if_neg (c := decide (filledAt b S (i + 2) (p / b)) = true) (by simpa using hfp)]
    rw [layerNode, wordN]
    by_cases hf : filledAt b S (i + 1) p
    · rw [if_pos hf, if_pos (show rng b i p ⊆ S from hf)]
    · rw [if_neg hf, if_neg (show ¬ rng b i p ⊆ S from hf)]

theorem adjLayers_snoc (b : ℕ) (S : Finset ℕ) :
    ∀ (m i : ℕ), adjLayers b S i (m + 1) = adjLayers b S i m ++ adjLayer b S (i + m) := by
  intro m
  induction m with
  | zero =>
    intro i
    rw [show adjLayers b S i 1 = adjLayer b S i ++ adjLayers b S (i + 1) 0 from rfl]
    rw [show adjLayers b S i 0 = [] from rfl, show adjLayers b S (i + 1) 0 = [] from rfl]
    simp
  | succ m ih =>
    intro i
    rw [show adjLayers b S i (m + 1 + 1) =
      adjLayer b S i ++ adjLayers b S (i + 1) (m + 1) from rfl]
    rw [ih (i + 1)]
    rw [show adjLayers b S i (m + 1) =
      adjLayer b S i ++ adjLayers b S (i + 1) m from rfl]
    rw [List.append_assoc]
    rw [show i + 1 + m = i + (m + 1) from by omega]

theorem emit_adjLayers (b : ℕ) (hb2 : 2 ≤ b) (S : Finset ℕ) :
    ∀ m : ℕ, emitWords (adjLayers b S 0 (m + 1)) =
      levelWordsN b S m (liveList b S m) := by
  have hb : 0 < b := by omega
  intro m
  induction m with
  | zero =>
    rw [adjLayers_snoc b S 0 0]
    rw [show adjLayers b S 0 0 = [] from rfl, List.nil_append]
    rw [show (0 : ℕ) + 0 = 0 from rfl, emitWords_adjLayer b hb S 0]
    rw [levelWordsN]
  | succ m ih =>
    rw [adjLayers_snoc b S (m + 1) 0, emitWords_append, emitWords_adjLayer b hb S _, ih]
    rw [show (0 : ℕ) + (m + 1) = m + 1 from by omega]
    rw [levelWordsN_live_succ b hb2 S m]

/-! ## The emitted words are exactly the level-order serialization -/

theorem layerVals_top (b : ℕ) (hb : 0 < b) (S : Finset ℕ) (h : ℕ) (hS : S.Nonempty)
    (hbound : ∀ v ∈ S, v < b ^ h) : layerVals b S h = {0} := by
  apply Finset.ext
  intro q
  rw [layerVals, Finset.mem_image, Finset.mem_singleton]
  constructor
  · rintro ⟨x, hx, rfl⟩
    exact Nat.div_eq_of_lt (hbound x hx)
  · rintro rfl
    obtain ⟨x, hx⟩ := hS
    exact ⟨x, hx, Nat.div_eq_of_lt (hbound x hx)⟩

theorem liveList_top (b : ℕ) (hb2 : 2 ≤ b) (S : Finset ℕ) (h : ℕ) (hh : 1 ≤ h)
    (hS : S.Nonempty) (hbound : ∀ v ∈ S, v < b ^ h) :
    liveList b S (h - 1) = [0] := by
  have hb : 0 < b := by omega
  have hidx : h - 1 + 1 = h := by omega
  rw [liveList, hidx, layerVals_top b hb S h hS hbound, Finset.sort_singleton]
  have hnf : ¬ filledAt b S (h - 1 + 2) 0 := by
    intro hcon
    have hidx2 : h - 1 + 2 = h + 1 := by omega
    rw [hidx2] at hcon
    have hpow : b ^ (h + 1) = b * b ^ h := by rw [pow_succ]; ring
    have hpos : 0 < b ^ h := Nat.pos_pow_of_pos _ hb
    have hmul : 2 * b ^ h ≤ b * b ^ h := Nat.mul_le_mul_right _ hb2
    have hmem : b ^ h ∈ Finset.Icc (0 * b ^ (h + 1)) ((0 + 1) * b ^ (h + 1) - 1) := by
      rw [Finset.mem_Icc, zero_mul, zero_add, one_mul, hpow]
      omega
    have hin := hcon hmem
    have := hbound _ hin
    omega
  simp [hnf]

theorem encode_words (bf : BranchFactor) (S : Finset ℕ) (hb2 : 2 ≤ bf.value)
    (hS : S.Nonempty) (h : ℕ) (hh : 1 ≤ h) (hbound : ∀ v ∈ S, v < bf.value ^ h) :
    emitWords (buildLayers bf h S (fun _ => true) []) =
      levelWordsN bf.value S (h - 1) [0] := by
  have hb : 0 < bf.value := by omega
  match h, hh with
  | 1, _ =>
    rw [buildLayers_full bf S hb hS 1 (by omega)]
    rw [show (1 : ℕ) - 1 = 0 from rfl]
    rw [show adjLayers bf.value S 0 0 = [] from rfl]
    rw [emitWords_append, emitWords_nil, emitWords_rawLayer]
    rw [show (0 : ℕ) + 1 = 1 from rfl]
    rw [layerVals_top bf.value hb S 1 hS hbound, Finset.sort_singleton]
    rw [levelWordsN]
    rfl
  | m + 2, _ =>
    rw [buildLayers_full bf S hb hS (m + 2) (by omega)]
    rw [show (m + 2 : ℕ) - 1 = m + 1 from rfl]
    rw [emitWords_append, emitWords_rawLayer, emit_adjLayers bf.value hb2 S m]
    have htop : ((layerVals bf.value S (m + 1 + 1)).sort (· ≤ ·)) = [0] := by
      rw [show m + 1 + 1 = m + 2 from rfl, layerVals_top bf.value hb S (m + 2) hS hbound,
        Finset.sort_singleton]
    rw [htop]
    have hlive0 := liveList_top bf.value hb2 S (m + 2) (by omega) hS hbound
    rw [show (m + 2 : ℕ) - 1 = m + 1 from rfl] at hlive0
    conv_rhs => rw [← hlive0]
    rw [levelWordsN_live_succ bf.value hb2 S m, hlive0]

/-! ## The decoder recovers the set from the serialized words -/

theorem two_le_value (bf : BranchFactor) : 2 ≤ bf.value := by
  rcases bf <;> decide

theorem value_le_32 (bf : BranchFactor) : bf.value ≤ 32 := by
  rcases bf <;> decide

theorem wordN_lt {b : ℕ} (hb : 0 < b) (S : Finset ℕ) (k p : ℕ) :
    wordN b S k p < 2 ^ b := by
  rw [wordN]
  split_ifs
  · exact Nat.pos_pow_of_pos _ (by omega)
  · exact maskN_lt_two_pow hb

theorem levelWordsN_lt {b : ℕ} (hb : 0 < b) (S : Finset ℕ) :
    ∀ (k : ℕ) (ps : List ℕ), ∀ w ∈ levelWordsN b S k ps, w < 2 ^ b := by
  intro k
  induction k with
  | zero =>
    intro ps w hw
    rw [levelWordsN] at hw
    obtain ⟨p, _, rfl⟩ := List.mem_map.mp hw
    exact wordN_lt hb S 0 p
  | succ k ih =>
    intro ps w hw
    rw [levelWordsN, List.mem_append] at hw
    rcases hw with hw | hw
    · obtain ⟨p, _, rfl⟩ := List.mem_map.mp hw
      exact wordN_lt hb S (k + 1) p
    · exact ih _ w hw

theorem levelWordsN_root (b : ℕ) (S : Finset ℕ) (h : ℕ) (hh : 1 ≤ h) :
    levelWordsN b S (h - 1) [0] =
      [0].map (wordN b S (h - 1)) ++
        levelWordsN b S (h - 1 - 1) (([] : List ℕ) ++ [0].flatMap (childIdxN b S (h - 1))) := by
  match h, hh with
  | 1, _ =>
    rw [show (1 : ℕ) - 1 = 0 from rfl]
    have hchild : childIdxN b S 0 0 = [] := by
      rw [childIdxN, if_pos (Or.inr rfl)]
    simp [levelWordsN, hchild]
  | m + 2, _ =>
    rw [show (m + 2 : ℕ) - 1 = m + 1 from rfl, show (m + 1 : ℕ) - 1 = m from rfl]
    rw [levelWordsN, List.nil_append]

theorem roundtrip_core (bf : BranchFactor) (S : Finset ℕ) (hS : S.Nonempty) (h : ℕ)
    (hh : 1 ≤ h) (hh31 : h ≤ 31) (hbound : ∀ v ∈ S, v < bf.value ^ h) :
    from_sparse_bit_set (intoBytes bf h (levelWordsN bf.value S (h - 1) [0])) = some S := by
  have hb2 := two_le_value bf
  have hb32 := value_le_32 bf
  have hb : 0 < bf.value := by omega
  rw [from_sparse_bit_set, decode_header_intoBytes hh31]
  show decode_sparse_bit_set_nodes bf
    (intoBytes bf h (levelWordsN bf.value S (h - 1) [0])) h = some S
  rw [decode_sparse_bit_set_nodes, if_neg (by omega)]
  rw [decodeLoop_eq_W]
  obtain ⟨rest, hrest⟩ := @wordsFrom_intoBytes bf h
    (levelWordsN bf.value S (h - 1) [0]) (levelWordsN_lt hb S (h - 1) [0])
  rw [hrest, levelWordsN_root bf.value S h hh]
  have hqueue : ([⟨0, 1⟩] : List NextNode) =
      ([0] : List ℕ).map (pend bf.value h (h - 1)) ++
        ([] : List ℕ).map (pend bf.value h (h - 1 - 1)) := by
    rw [List.map_cons, List.map_nil, List.map_nil, List.append_nil]
    rw [pend, zero_mul, show h - (h - 1) = 1 from by omega]
  rw [hqueue]
  have hsub : S ⊆ rng bf.value (h - 1) 0 := by
    intro v hv
    rw [rng, Finset.mem_Icc, zero_mul, show h - 1 + 1 = h from by omega]
    have hpos : 0 < bf.value ^ h := Nat.pos_pow_of_pos _ hb
    have := hbound v hv
    omega
  have hR : ∀ p ∈ ([0] : List ℕ), (S ∩ rng bf.value (h - 1) p).Nonempty := by
    intro p hp
    rw [List.mem_singleton] at hp
    subst hp
    rw [Finset.inter_eq_left.mpr hsub]
    exact hS
  have hmain := decodeW_bfs bf.value h S hb2 hb32 (h - 1) (by omega) [0] [] rest ∅
    hR (by intro p hp; simp at hp) (fun _ => rfl)
  rw [hmain]
  congr 1
  rw [contentsN_nil, Finset.union_empty, contentsN]
  rw [List.foldr_cons, List.foldr_nil]
  rw [Finset.inter_eq_left.mpr hsub]
  rw [Finset.union_empty, Finset.empty_union]

/-! ## The full round trips -/

theorem roundtrip_with_bf (bf : BranchFactor) (S : Finset ℕ) (hS : S.Nonempty)
    (hht : bf.tree_height_for (S.max' hS) ≤ 31) :
    from_sparse_bit_set (to_sparse_bit_set_with_bf bf S) = some S := by
  rw [to_sparse_bit_set_with_bf, lastValue, dif_pos hS]
  show from_sparse_bit_set (intoBytes bf (bf.tree_height_for (S.max' hS))
    (emitWords (buildLayers bf (bf.tree_height_for (S.max' hS)) S (fun _ => true) []))) =
    some S
  have hh := one_le_tree_height bf (S.max' hS)
  have hbound : ∀ v ∈ S, v < bf.value ^ bf.tree_height_for (S.max' hS) := by
    intro v hv
    have h1 := lt_pow_tree_height bf (S.max' hS)
    have h2 := Finset.le_max' S v hv
    omega
  rw [encode_words bf S (two_le_value bf) hS _ hh hbound]
  exact roundtrip_core bf S hS _ hh hht hbound

theorem roundtrip_with_bf_empty (bf : BranchFactor) :
    from_sparse_bit_set (to_sparse_bit_set_with_bf bf ∅) = some ∅ := by
  rw [to_sparse_bit_set_with_bf, lastValue, dif_neg (by simp)]
  show from_sparse_bit_set (intoBytes bf 0 []) = some ∅
  rw [from_sparse_bit_set, decode_header_intoBytes (by omega)]
  show decode_sparse_bit_set_nodes bf (intoBytes bf 0 []) 0 = some ∅
  rw [decode_sparse_bit_set_nodes, if_pos rfl]

theorem mem_candidatesList {S : Finset ℕ} {m : ℕ} {x : List ℕ}
    (h : x ∈ candidatesList S m) :
    ∃ bf : BranchFactor, bf.tree_height_for m < MAX_HEIGHT ∧
      x = to_sparse_bit_set_with_bf bf S := by
  rw [candidatesList] at h
  rcases List.mem_append.mp h with h | h
  · rcases List.mem_append.mp h with h | h
    · rcases List.mem_append.mp h with h | h
      · by_cases hc : BranchFactor.Two.tree_height_for m < MAX_HEIGHT
        · rw [if_pos hc] at h
          exact ⟨.Two, hc, List.mem_singleton.mp h⟩
        · rw [if_neg hc] at h
          simp at h
      · by_cases hc : BranchFactor.Four.tree_height_for m < MAX_HEIGHT
        · rw [if_pos hc] at h
          exact ⟨.Four, hc, List.mem_singleton.mp h⟩
        · rw [if_neg hc] at h
          simp at h
    · by_cases hc : BranchFactor.Eight.tree_height_for m < MAX_HEIGHT
      · rw [if_pos hc] at h
        exact ⟨.Eight, hc, List.mem_singleton.mp h⟩
      · rw [if_neg hc] at h
        simp at h
  · by_cases hc : BranchFactor.ThirtyTwo.tree_height_for m < MAX_HEIGHT
    · rw [if_pos hc] at h
      exact ⟨.ThirtyTwo, hc, List.mem_singleton.mp h⟩
    · rw [if_neg hc] at h
      simp at h

theorem roundtrip_auto (S : Finset ℕ) (hbound : ∀ v ∈ S, v < 2 ^ 32) :
    from_sparse_bit_set (to_sparse_bit_set S) = some S := by
  by_cases hS : S.Nonempty
  · rw [to_sparse_bit_set, lastValue, dif_pos hS]
    show from_sparse_bit_set ((minByLen (candidatesList S (S.max' hS))).getD []) = some S
    have hne := candidatesList_ne_nil (S := S) (m := S.max' hS) (hbound _ (S.max'_mem hS))
    have hsome := minByLen_isSome hne
    obtain ⟨r, hr⟩ := Option.isSome_iff_exists.mp hsome
    rw [hr, Option.getD_some]
    have hmem := (minByLen_spec hr).1
    obtain ⟨bf, hht, rfl⟩ := mem_candidatesList hmem
    exact roundtrip_with_bf bf S hS (by rw [MAX_HEIGHT] at hht; omega)
  · rw [Finset.not_nonempty_iff_eq_empty] at hS
    subst hS
    rw [to_sparse_bit_set, lastValue, dif_neg (by simp)]
    show from_sparse_bit_set (intoBytes .Two 0 []) = some ∅
    rw [from_sparse_bit_set, decode_header_intoBytes (by omega)]
    show decode_sparse_bit_set_nodes .Two (intoBytes .Two 0 []) 0 = some ∅
    rw [decode_sparse_bit_set_nodes, if_pos rfl]

/-- C1 (amended): for every set of u32 values, encoding with a forced
branch factor round-trips through the decoder whenever the required tree
height for the set's maximum fits the 5-bit header height field
(`tree_height_for ≤ 31`; automatic for branch factors 4, 8 and 32, and
true for branch factor 2 up to maxima below `2^31`), and the
auto-selecting encoder always round-trips. -/
theorem roundtrip_amended (S : Finset ℕ) (hbound : ∀ v ∈ S, v < 2 ^ 32) :
    (∀ bf : BranchFactor,
      (∀ hS : S.Nonempty, bf.tree_height_for (S.max' hS) ≤ 31) →
        from_sparse_bit_set (to_sparse_bit_set_with_bf bf S) = some S) ∧
    from_sparse_bit_set (to_sparse_bit_set S) = some S := by
  constructor
  · intro bf hht
    by_cases hS : S.Nonempty
    · exact roundtrip_with_bf bf S hS (hht hS)
    · rw [Finset.not_nonempty_iff_eq_empty] at hS
      subst hS
      exact roundtrip_with_bf_empty bf
  · exact roundtrip_auto S hbound

/-- Witness for C1 (amended) at the spec's example set `{2, 33, 323}`:
every branch factor's height fits, and both a forced branch factor and the
auto-selection round-trip. -/
theorem roundtrip_amended_witness :
    (∀ v ∈ ({2, 33, 323} : Finset ℕ), v < 2 ^ 32) ∧
    (∀ hS : ({2, 33, 323} : Finset ℕ).Nonempty,
      BranchFactor.Eight.tree_height_for (({2, 33, 323} : Finset ℕ).max' hS) ≤ 31) ∧
    from_sparse_bit_set (to_sparse_bit_set_with_bf .Eight {2, 33, 323}) =
      some {2, 33, 323} ∧
    from_sparse_bit_set (to_sparse_bit_set ({2, 33, 323} : Finset ℕ)) =
      some {2, 33, 323} := by
  refine ⟨?hb, ?hh, ?h1, ?h2⟩
  case hb => decide
  case hh =>
    intro hS
    have hmax : ({2, 33, 323} : Finset ℕ).max' hS = 323 := rfl
    rw [tree_height_for_eq_E, hmax]
    decide
  case h1 =>
    exact (roundtrip_amended {2, 33, 323} (by decide)).1 .Eight (by
      intro hS
      have hmax : ({2, 33, 323} : Finset ℕ).max' hS = 323 := rfl
      rw [tree_height_for_eq_E, hmax]
      decide)
  case h2 =>
    exact (roundtrip_amended {2, 33, 323} (by decide)).2

/-- C1 counterexample: with branch factor 2 forced on `{2^31}` the
required height (32) overflows the 5-bit header height field, and the
encoding decodes to the empty set instead of the original set. -/
theorem roundtrip_bf2_fails :
    from_sparse_bit_set (to_sparse_bit_set_with_bf .Two {2147483648}) = some ∅ ∧
    ({2147483648} : Finset ℕ) ≠ ∅ := by
  constructor
  · rw [to_sparse_bit_set_with_bf_eq_E, from_sparse_bit_set_eq_E]
    decide
  · decide

end SparseBitSet
